import Mathlib

set_option linter.unusedSectionVars false
set_option linter.unusedVariables false

/-!
# Mini database engine (`Engine.h`)

A shallow embedding of the index engine of `src/Engine.h`: a record heap with a
unique index on the student id and a non-unique index on the lower-cased last
name, both held in ordered search trees.

Conventions of the embedding.

* A `std::string` is the list of its bytes (`Str`), each byte read as an
  `unsigned char`; `std::string` comparison is the lexicographic order on
  unsigned bytes, which is the order Mathlib puts on `List Nat`.
* `int` values (ids, positions stored in the indexes) are integers. No
  arithmetic is done on ids; the only cast, `static_cast<int>(heap.size())`, is
  the identity for every heap of fewer than `2^31` records, which is the regime
  described here.
* A `const Record *` into the heap is the index of the slot it points to.
* Methods that mutate the engine return the new engine next to their result.
-/

namespace MiniDB

/-- A `std::string`, as the list of its bytes read as `unsigned char`. -/
abbrev Str := List Nat

/-- The C-locale `tolower` on one byte: `A`..`Z` go to `a`..`z`. -/
def toLowerChar (c : Nat) : Nat :=
  if 65 ≤ c ∧ c ≤ 90 then c + 32 else c

/-- `toLower` of `Engine.h`: every byte of the string is lower-cased. -/
def toLower (s : Str) : Str :=
  s.map toLowerChar

/-- Modelled from the spec: `Record.h` is not part of the sources; the record
carries the fields the engine reads and writes, a unique integer key, the
string used by the secondary index and the tombstone flag. -/
structure Record where
  id : Int
  last : Str
  deleted : Bool
deriving DecidableEq, Repr

/-- Modelled from the spec: `BST.h` is not part of the sources; the nodes of an
ordered binary search tree with one value per key. -/
inductive Node (K V : Type) where
  | nil : Node K V
  | node (left : Node K V) (key : K) (value : V) (right : Node K V) : Node K V
deriving Repr

namespace Node

variable {K V : Type} [LinearOrder K]

/-- In-order list of the entries of a tree. -/
def toList : Node K V → List (K × V)
  | nil => []
  | node l k v r => toList l ++ (k, v) :: toList r

/-- The keys of a tree, in in-order. -/
def keys (t : Node K V) : List K :=
  (toList t).map Prod.fst

/-- The search-tree invariant: the in-order key sequence is strictly
increasing. -/
def Ordered (t : Node K V) : Prop :=
  (keys t).Pairwise (· < ·)

/-- Modelled from the spec: point lookup, walking down from the root. -/
def find : Node K V → K → Option V
  | nil, _ => none
  | node l a x r, k =>
    if k < a then find l k
    else if a < k then find r k
    else some x

/-- Modelled from the spec: number of key comparisons of a point lookup, one
per node on the path to the key or to the point of failure. -/
def findCost : Node K V → K → Nat
  | nil, _ => 0
  | node l a _ r, k =>
    if k < a then findCost l k + 1
    else if a < k then findCost r k + 1
    else 1

/-- Modelled from the spec: insert-or-update. -/
def insert : Node K V → K → V → Node K V
  | nil, k, v => node nil k v nil
  | node l a x r, k, v =>
    if k < a then node (insert l k v) a x r
    else if a < k then node l a x (insert r k v)
    else node l a v r

/-- Store through the reference that `find` returned for `k`: the value kept
under `k` is replaced, nothing else changes and nothing is counted. -/
def write : Node K V → K → V → Node K V
  | nil, _, _ => nil
  | node l a x r, k, v =>
    if k < a then node (write l k v) a x r
    else if a < k then node l a x (write r k v)
    else node l a v r

/-- Detach the least entry of a tree. -/
def splitMin : Node K V → Option (K × V × Node K V)
  | nil => none
  | node l a x r =>
    match splitMin l with
    | none => some (a, x, r)
    | some (k, v, l') => some (k, v, node l' a x r)

/-- Modelled from the spec: key deletion; a node with two children is replaced
by its in-order successor. -/
def erase : Node K V → K → Node K V
  | nil, _ => nil
  | node l a x r, k =>
    if k < a then node (erase l k) a x r
    else if a < k then node l a x (erase r k)
    else
      match l, splitMin r with
      | nil, _ => r
      | _, none => l
      | _, some (k', v', r') => node l k' v' r'

/-- Modelled from the spec: ordered range scan over the closed interval
`[lo, hi]`, folding the visitor over the visited entries in ascending key
order; subtrees that cannot meet the interval are not entered. -/
def rangeFold {σ : Type} (lo hi : K) (visit : σ → K → V → σ) : Node K V → σ → σ
  | nil, s => s
  | node l a x r, s =>
    let s1 := if lo < a then rangeFold lo hi visit l s else s
    let s2 := if lo ≤ a ∧ a ≤ hi then visit s1 a x else s1
    if a < hi then rangeFold lo hi visit r s2 else s2

/-- Modelled from the spec: number of key comparisons of a range scan, one per
node entered. -/
def rangeCost (lo hi : K) : Node K V → Nat
  | nil => 0
  | node l a _ r =>
    (if lo < a then rangeCost lo hi l else 0) + 1 +
      (if a < hi then rangeCost lo hi r else 0)

end Node

/-- Modelled from the spec: `BST<K, V>` of `BST.h`, the tree together with its
comparison counter. -/
structure BST (K V : Type) where
  root : Node K V
  comparisons : Nat
deriving Repr

namespace BST

variable {K V : Type} [LinearOrder K]

/-- The empty tree of a freshly constructed engine. -/
def empty : BST K V :=
  { root := Node.nil, comparisons := 0 }

/-- Modelled from the spec: `resetMetrics()` sets the counter to zero. -/
def resetMetrics (t : BST K V) : BST K V :=
  { t with comparisons := 0 }

/-- Modelled from the spec: `find(key)`; the counter grows by the comparisons
of the walk, the result is the stored value or not-found. -/
def find (t : BST K V) (k : K) : BST K V × Option V :=
  ({ t with comparisons := t.comparisons + t.root.findCost k }, t.root.find k)

/-- Modelled from the spec: `insert(key, value)`; the counter grows during the
key-search phase. -/
def insert (t : BST K V) (k : K) (v : V) : BST K V :=
  { root := t.root.insert k v, comparisons := t.comparisons + t.root.findCost k }

/-- Store through the pointer returned by `find`. -/
def write (t : BST K V) (k : K) (v : V) : BST K V :=
  { t with root := t.root.write k v }

/-- Modelled from the spec: `erase(key)` removes the entry and tells whether
one was removed; the counter is not touched. -/
def erase (t : BST K V) (k : K) : BST K V × Bool :=
  ({ t with root := t.root.erase k }, (t.root.find k).isSome)

/-- Modelled from the spec: `rangeApply(lo, hi, visitor)`; the visitor is
folded over the entries of `[lo, hi]` in ascending key order and the counter
grows by the comparisons of the scan. -/
def rangeApply {σ : Type} (t : BST K V) (lo hi : K) (visit : σ → K → V → σ) (init : σ) :
    BST K V × σ :=
  ({ t with comparisons := t.comparisons + t.root.rangeCost lo hi },
    t.root.rangeFold lo hi visit init)

end BST

/-- The engine of `Engine.h`: the heap and the two indexes. -/
structure Engine where
  heap : List Record
  idIndex : BST Int Int
  lastIndex : BST Str (List Int)
deriving Repr

/-- A freshly constructed engine. -/
def Engine.empty : Engine :=
  { heap := [], idIndex := BST.empty, lastIndex := BST.empty }

/-- The guard `rid >= 0 && rid < heap.size() && !heap[rid].deleted` of the
query visitors. -/
def liveSlot (heap : List Record) (rid : Int) : Bool :=
  decide (0 ≤ rid) && decide (rid < (heap.length : Int)) &&
    (match heap[rid.toNat]? with
     | some r => !r.deleted
     | none => false)

/-- `Engine::insertRecord`: returns the new engine and the position of the
record in the heap. -/
def insertRecord (e : Engine) (recIn : Record) : Engine × Int :=
  let rid : Int := (e.heap.length : Int)
  let newRec : Record := { recIn with deleted := false }
  let heap := e.heap ++ [newRec]
  let idIndex := e.idIndex.insert newRec.id rid
  let key := toLower newRec.last
  let found := e.lastIndex.find key
  match found.2 with
  | none =>
    ({ heap := heap, idIndex := idIndex, lastIndex := found.1.insert key [rid] }, rid)
  | some v =>
    ({ heap := heap, idIndex := idIndex, lastIndex := found.1.write key (v ++ [rid]) }, rid)

/-- `Engine::deleteById`: returns the new engine and whether the deletion
succeeded. The `none` arm of the heap access cannot be reached after the
bounds check. -/
def deleteById (e : Engine) (id : Int) : Engine × Bool :=
  let found := e.idIndex.find id
  match found.2 with
  | none => ({ e with idIndex := found.1 }, false)
  | some rid =>
    if rid < 0 ∨ rid ≥ (e.heap.length : Int) then ({ e with idIndex := found.1 }, false)
    else
      match e.heap[rid.toNat]? with
      | none => ({ e with idIndex := found.1 }, false)
      | some r =>
        if r.deleted then ({ e with idIndex := found.1 }, false)
        else
          let heap := e.heap.set rid.toNat { r with deleted := true }
          let idIndex := (found.1.erase id).1
          let key := toLower r.last
          let foundVec := e.lastIndex.find key
          match foundVec.2 with
          | none => ({ heap := heap, idIndex := idIndex, lastIndex := foundVec.1 }, true)
          | some v =>
            let v1 := v.erase rid
            let lastIndex := foundVec.1.write key v1
            if v1.isEmpty then
              ({ heap := heap, idIndex := idIndex, lastIndex := (lastIndex.erase key).1 }, true)
            else
              ({ heap := heap, idIndex := idIndex, lastIndex := lastIndex }, true)

/-- `Engine::findById`: the new engine (only the counter of `idIndex` moves),
the slot pointed to by the result, and `cmpOut`. -/
def findById (e : Engine) (id : Int) : Engine × Option Nat × Nat :=
  let found := e.idIndex.resetMetrics.find id
  let cmpOut := found.1.comparisons
  let e1 : Engine := { e with idIndex := found.1 }
  match found.2 with
  | none => (e1, none, cmpOut)
  | some rid =>
    if rid < 0 ∨ rid ≥ (e.heap.length : Int) then (e1, none, cmpOut)
    else
      match e.heap[rid.toNat]? with
      | none => (e1, none, cmpOut)
      | some r => if r.deleted then (e1, none, cmpOut) else (e1, some rid.toNat, cmpOut)

/-- `Engine::rangeById`: the new engine, the slots pointed to by the result in
the order of the output vector, and `cmpOut`. -/
def rangeById (e : Engine) (lo hi : Int) : Engine × List Nat × Nat :=
  let scan := e.idIndex.resetMetrics.rangeApply lo hi
    (fun (out : List Nat) (_ : Int) (rid : Int) =>
      if liveSlot e.heap rid then out ++ [rid.toNat] else out) []
  ({ e with idIndex := scan.1 }, scan.2, scan.1.comparisons)

/-- The test at the head of the `prefixByLast` visitor: the key is at least as
long as `low` and agrees with it at every index below `low.size()`. -/
def keyMatches (key low : Str) : Bool :=
  !decide (key.length < low.length) &&
    (List.range low.length).all (fun i => key.getD i 0 == low.getD i 0)

/-- `Engine::prefixByLast`: the new engine, the slots pointed to by the result
in the order of the output vector, and `cmpOut`. -/
def prefixByLast (e : Engine) (pfx : Str) : Engine × List Nat × Nat :=
  let low := toLower pfx
  let high := low ++ [127]
  let scan := e.lastIndex.resetMetrics.rangeApply low high
    (fun (out : List Nat) (key : Str) (rids : List Int) =>
      if keyMatches key low then
        rids.foldl (fun (acc : List Nat) (rid : Int) =>
          if liveSlot e.heap rid then acc ++ [rid.toNat] else acc) out
      else out) []
  ({ e with lastIndex := scan.1 }, scan.2, scan.1.comparisons)

/-- A mutating call on the engine. -/
inductive Op where
  | insert (r : Record) : Op
  | delete (id : Int) : Op
deriving Repr

/-- The engine after one call. -/
def step (e : Engine) : Op → Engine
  | Op.insert r => (insertRecord e r).1
  | Op.delete id => (deleteById e id).1

/-- The engine after a sequence of calls on the empty engine. -/
def run (ops : List Op) : Engine :=
  ops.foldl step Engine.empty

/-- The engine states reachable from the empty engine by `insertRecord` and
`deleteById` calls. -/
inductive Reachable : Engine → Prop where
  | empty : Reachable Engine.empty
  | insert (e : Engine) (r : Record) : Reachable e → Reachable (insertRecord e r).1
  | delete (e : Engine) (id : Int) : Reachable e → Reachable (deleteById e id).1

/-- The root of `lastIndex` after slot `n`, filed under `key`, has been taken
out of its bucket. -/
def lastRootAfterDelete (root : Node Str (List Int)) (key : Str) (n : Nat) :
    Node Str (List Int) :=
  match root.find key with
  | none => root
  | some v =>
    if (v.erase (n : Int)).isEmpty then ((root.write key (v.erase (n : Int))).erase key)
    else root.write key (v.erase (n : Int))

/-- The position list stored under `s` in `lastIndex`, empty when `s` is not a
key. -/
def bucket (e : Engine) (s : Str) : List Int :=
  (e.lastIndex.root.find s).getD []

/-- Slot `n` of the heap holds a record that is not tombstoned. -/
def Live (heap : List Record) (n : Nat) : Prop :=
  ∃ r, heap[n]? = some r ∧ r.deleted = false

/-- Slot `n` holds a live record with id `k`, and no later slot holds a record
with id `k`: the record is the most recent insert of its id. -/
def Current (heap : List Record) (n : Nat) (k : Int) : Prop :=
  ∃ r, heap[n]? = some r ∧ r.id = k ∧ r.deleted = false ∧
    ∀ m r1, n < m → heap[m]? = some r1 → r1.id ≠ k

/-- Slot `n` holds a live record whose lower-cased last name is `s`. -/
def liveKey (heap : List Record) (n : Nat) (s : Str) : Bool :=
  match heap[n]? with
  | some r => !r.deleted && decide (toLower r.last = s)
  | none => false

/-- The lower-cased last name of the record in slot `n`. -/
def keyAt (heap : List Record) (n : Nat) : Str :=
  match heap[n]? with
  | some r => toLower r.last
  | none => []

/-- The id of the record in slot `n`. -/
def idAt (heap : List Record) (n : Nat) : Int :=
  match heap[n]? with
  | some r => r.id
  | none => 0

/-- The consistency of the two indexes with the heap, kept by every call. -/
structure Inv (e : Engine) : Prop where
  ordId : e.idIndex.root.Ordered
  ordLast : e.lastIndex.root.Ordered
  idExact : ∀ (k rid : Int),
    e.idIndex.root.find k = some rid ↔ ∃ n : Nat, rid = (n : Int) ∧ Current e.heap n k
  lastExact : ∀ s : Str,
    bucket e s =
      ((List.range e.heap.length).filter (fun n => liveKey e.heap n s)).map Int.ofNat
  noEmpty : ∀ s : Str, e.lastIndex.root.find s ≠ some []

/-- A later slot of the heap holds a record with the id of slot `n`: the
record of slot `n` has been overwritten in `idIndex` by a later insert. -/
def Superseded (heap : List Record) (n : Nat) : Prop :=
  ∃ m r, n < m ∧ heap[m]? = some r ∧ r.id = idAt heap n

/-- Two calls that differ at most in the letter case of an inserted last
name. -/
def CaseVariant : Op → Op → Prop
  | Op.insert r1, Op.insert r2 =>
    r1.id = r2.id ∧ r1.deleted = r2.deleted ∧ toLower r1.last = toLower r2.last
  | Op.delete k1, Op.delete k2 => k1 = k2
  | _, _ => False

/-- Two records that agree up to the letter case of the last name. -/
def SameUpToCase (a b : Record) : Prop :=
  a.id = b.id ∧ a.deleted = b.deleted ∧ toLower a.last = toLower b.last

/-- Scenario A of the specification: ids 3, 1, 2 with last names "Lee", "Lee",
"Kim". -/
def scenarioA : Engine :=
  run [Op.insert ⟨3, [76, 101, 101], false⟩, Op.insert ⟨1, [76, 101, 101], false⟩,
    Op.insert ⟨2, [75, 105, 109], false⟩]

/-- Scenario B of the specification: (5, "Smith"), (6, "smith"), (7, "Smythe"). -/
def scenarioB : Engine :=
  run [Op.insert ⟨5, [83, 109, 105, 116, 104], false⟩,
    Op.insert ⟨6, [115, 109, 105, 116, 104], false⟩,
    Op.insert ⟨7, [83, 109, 121, 116, 104, 101], false⟩]

/-- Scenario C of the specification before the deletes: (10, "X"). -/
def scenarioC : Engine :=
  run [Op.insert ⟨10, [88], false⟩]

/-- Two inserts with the same id 1, last names "a" and "b". -/
def duplicateIdEngine : Engine :=
  run [Op.insert ⟨1, [97], false⟩, Op.insert ⟨1, [98], false⟩]

/-- One insert whose last name is the byte `a` followed by the byte 200. -/
def highByteEngine : Engine :=
  run [Op.insert ⟨1, [97, 200], false⟩]

/-- The record with its last name lower-cased. -/
def foldCase (r : Record) : Record :=
  { r with last := toLower r.last }

/-- Two engines whose index trees are equal and whose heaps agree slot by slot
up to the letter case of the last names. -/
def Sim (e1 e2 : Engine) : Prop :=
  e1.idIndex.root = e2.idIndex.root ∧ e1.lastIndex.root = e2.lastIndex.root ∧
    e1.heap.map foldCase = e2.heap.map foldCase

/-- The heap `h2` continues the heap `h1`: it is at least as long, every slot of
`h1` keeps its id and last name, and a tombstoned slot stays tombstoned. -/
def HeapExtends (h1 h2 : List Record) : Prop :=
  h1.length ≤ h2.length ∧
    ∀ (n : Nat) (r : Record), h1[n]? = some r →
      ∃ r2, h2[n]? = some r2 ∧ r2.id = r.id ∧ r2.last = r.last ∧
        (r.deleted = true → r2.deleted = true)

/-- The integers of `[lo, hi]` in increasing order. -/
def idsBetween (lo hi : Int) : List Int :=
  (List.range (hi + 1 - lo).toNat).map (fun i : Nat => lo + (i : Int))

/-- Scenario C of the specification after `deleteById(10)`. -/
def scenarioCDeleted : Engine :=
  run [Op.insert ⟨10, [88], false⟩, Op.delete 10]

/-- The engine after `insertRecord(r1)` on `e0`, the calls `ops1`,
`insertRecord(r2)` and the calls `ops2`. -/
def afterDuplicate (e0 : Engine) (r1 : Record) (ops1 : List Op) (r2 : Record)
    (ops2 : List Op) : Engine :=
  ops2.foldl step (insertRecord (ops1.foldl step (insertRecord e0 r1).1) r2).1

/-! ## The search tree -/

namespace Node

variable {K V : Type} [LinearOrder K]

@[simp] theorem keys_nil : keys (nil : Node K V) = [] := rfl

@[simp] theorem keys_node (l r : Node K V) (a : K) (x : V) :
    keys (node l a x r) = keys l ++ a :: keys r := by
  simp [keys, toList]

theorem mem_keys {t : Node K V} {k : K} : k ∈ keys t ↔ ∃ v, (k, v) ∈ toList t := by
  simp [keys]

theorem ordered_nil : Ordered (nil : Node K V) := by
  simp [Ordered]

theorem ordered_node {l r : Node K V} {a : K} {x : V} :
    Ordered (node l a x r) ↔
      Ordered l ∧ Ordered r ∧ (∀ k ∈ keys l, k < a) ∧ (∀ k ∈ keys r, a < k) := by
  simp only [Ordered, keys_node, List.pairwise_append, List.pairwise_cons, List.mem_cons]
  constructor
  · rintro ⟨hl, ⟨har, hr⟩, hlr⟩
    exact ⟨hl, hr, fun k hk => hlr k hk a (Or.inl rfl), har⟩
  · rintro ⟨hl, hr, hla, har⟩
    refine ⟨hl, ⟨har, hr⟩, ?_⟩
    intro k hk b hb
    rcases hb with rfl | hb
    · exact hla k hk
    · exact lt_trans (hla k hk) (har b hb)

theorem find_eq_some_iff {t : Node K V} (h : Ordered t) (k : K) (v : V) :
    find t k = some v ↔ (k, v) ∈ toList t := by
  induction t with
  | nil => simp [find, toList]
  | node l a x r ihl ihr =>
    obtain ⟨hl, hr, hla, har⟩ := ordered_node.1 h
    have nl : ∀ w, (k, w) ∈ toList l → k < a := fun w hw => hla k (mem_keys.2 ⟨w, hw⟩)
    have nr : ∀ w, (k, w) ∈ toList r → a < k := fun w hw => har k (mem_keys.2 ⟨w, hw⟩)
    simp only [find, toList, List.mem_append, List.mem_cons, Prod.mk.injEq]
    by_cases h1 : k < a
    · rw [if_pos h1, ihl hl]
      constructor
      · exact fun h => Or.inl h
      · rintro (h | ⟨rfl, -⟩ | h)
        · exact h
        · exact absurd h1 (lt_irrefl _)
        · exact absurd (nr v h) (not_lt_of_lt h1)
    · rw [if_neg h1]
      by_cases h2 : a < k
      · rw [if_pos h2, ihr hr]
        constructor
        · exact fun h => Or.inr (Or.inr h)
        · rintro (h | ⟨rfl, -⟩ | h)
          · exact absurd (nl v h) h1
          · exact absurd h2 (lt_irrefl _)
          · exact h
      · rw [if_neg h2]
        have hk : k = a := le_antisymm (not_lt.1 h2) (not_lt.1 h1)
        constructor
        · intro h
          exact Or.inr (Or.inl ⟨hk, (Option.some.inj h).symm⟩)
        · rintro (h | ⟨-, rfl⟩ | h)
          · exact absurd (nl v h) h1
          · rfl
          · exact absurd (nr v h) h2

theorem find_isSome_iff {t : Node K V} (h : Ordered t) (k : K) :
    (find t k).isSome ↔ k ∈ keys t := by
  rw [mem_keys, Option.isSome_iff_exists]
  exact exists_congr fun v => find_eq_some_iff h k v

theorem find_insert (t : Node K V) (k : K) (v : V) (k' : K) :
    find (insert t k v) k' = if k' = k then some v else find t k' := by
  induction t with
  | nil =>
    simp only [insert, find]
    rcases lt_trichotomy k' k with h | h | h
    · simp [h, ne_of_lt h]
    · simp [h]
    · simp [h, not_lt_of_lt h, ne_of_gt h]
  | node l a x r ihl ihr =>
    simp only [insert]
    rcases lt_trichotomy k a with h | h | h
    · rw [if_pos h]
      simp only [find, ihl]
      by_cases h1 : k' < a
      · simp [h1]
      · have : k' ≠ k := fun e => h1 (e ▸ h)
        simp [h1, this]
    · subst h
      simp only [lt_irrefl, if_false, find]
      rcases lt_trichotomy k' k with h | h | h
      · simp [h, ne_of_lt h]
      · simp [h]
      · simp [h, not_lt_of_lt h, ne_of_gt h]
    · rw [if_neg (not_lt_of_lt h), if_pos h]
      simp only [find, ihr]
      by_cases h1 : k' < a
      · have : k' ≠ k := ne_of_lt (lt_trans h1 h)
        simp [h1, this]
      · by_cases h2 : a < k'
        · simp [h1, h2]
        · have : k' ≠ k := fun e => h2 (e ▸ h)
          simp [h1, h2, this]

theorem mem_keys_insert {t : Node K V} {k : K} {v : V} {b : K} :
    b ∈ keys (insert t k v) ↔ b = k ∨ b ∈ keys t := by
  induction t with
  | nil => simp [insert]
  | node l a x r ihl ihr =>
    simp only [insert]
    rcases lt_trichotomy k a with h | h | h
    · rw [if_pos h]; simp only [keys_node, List.mem_append, List.mem_cons, ihl]; tauto
    · subst h; simp only [lt_irrefl, if_false, keys_node, List.mem_append, List.mem_cons]; tauto
    · rw [if_neg (not_lt_of_lt h), if_pos h]
      simp only [keys_node, List.mem_append, List.mem_cons, ihr]; tauto

theorem Ordered.insert {t : Node K V} (h : Ordered t) (k : K) (v : V) :
    Ordered (insert t k v) := by
  induction t with
  | nil => simp [Node.insert, Ordered]
  | node l a x r ihl ihr =>
    obtain ⟨hl, hr, hla, har⟩ := ordered_node.1 h
    simp only [Node.insert]
    rcases lt_trichotomy k a with h1 | h1 | h1
    · rw [if_pos h1]
      refine ordered_node.2 ⟨ihl hl, hr, ?_, har⟩
      intro b hb
      rcases mem_keys_insert.1 hb with rfl | hb
      · exact h1
      · exact hla b hb
    · subst h1
      simp only [lt_irrefl, if_false]
      exact ordered_node.2 ⟨hl, hr, hla, har⟩
    · rw [if_neg (not_lt_of_lt h1), if_pos h1]
      refine ordered_node.2 ⟨hl, ihr hr, hla, ?_⟩
      intro b hb
      rcases mem_keys_insert.1 hb with rfl | hb
      · exact h1
      · exact har b hb

theorem keys_write (t : Node K V) (k : K) (v : V) : keys (write t k v) = keys t := by
  induction t with
  | nil => rfl
  | node l a x r ihl ihr =>
    simp only [write]
    split_ifs <;> simp [ihl, ihr]

theorem Ordered.write {t : Node K V} (h : Ordered t) (k : K) (v : V) :
    Ordered (write t k v) := by
  simpa [Ordered, keys_write] using h

theorem find_write (t : Node K V) (k : K) (v : V) (k' : K) :
    find (write t k v) k' =
      if k' = k then (find t k).map (fun _ => v) else find t k' := by
  induction t with
  | nil => simp [write, find]
  | node l a x r ihl ihr =>
    simp only [write]
    rcases lt_trichotomy k a with h | h | h
    · rw [if_pos h]
      simp only [find, ihl, if_pos h]
      by_cases h1 : k' < a
      · simp [h1]
      · have : k' ≠ k := fun e => h1 (e ▸ h)
        simp [h1, this]
    · subst h
      simp only [lt_irrefl, if_false, find]
      rcases lt_trichotomy k' k with h | h | h
      · simp [h, ne_of_lt h]
      · simp [h]
      · simp [h, not_lt_of_lt h, ne_of_gt h]
    · rw [if_neg (not_lt_of_lt h), if_pos h]
      simp only [find, ihr, if_neg (not_lt_of_lt h), if_pos h]
      by_cases h1 : k' < a
      · have : k' ≠ k := ne_of_lt (lt_trans h1 h)
        simp [h1, this]
      · by_cases h2 : a < k'
        · simp [h1, h2]
        · have : k' ≠ k := fun e => h2 (e ▸ h)
          simp [h1, h2, this]

theorem splitMin_eq_none {t : Node K V} (h : splitMin t = none) : t = nil := by
  cases t with
  | nil => rfl
  | node l a x r =>
    simp only [splitMin] at h
    split at h <;> simp at h

theorem toList_splitMin {t t' : Node K V} {k : K} {v : V}
    (h : splitMin t = some (k, v, t')) : toList t = (k, v) :: toList t' := by
  induction t generalizing t' k v with
  | nil => simp [splitMin] at h
  | node l a x r ihl _ =>
    simp only [splitMin] at h
    split at h
    · rename_i hl
      have := splitMin_eq_none hl
      subst this
      simp only [Option.some.injEq, Prod.mk.injEq] at h
      obtain ⟨rfl, rfl, rfl⟩ := h
      simp [toList]
    · rename_i k1 v1 l1 hl
      simp only [Option.some.injEq, Prod.mk.injEq] at h
      obtain ⟨rfl, rfl, rfl⟩ := h
      simp [toList, ihl hl]

theorem filter_key_ne_of_lt {l : List (K × V)} {k : K} (h : ∀ e ∈ l, e.1 ≠ k) :
    l.filter (fun e => !decide (e.1 = k)) = l := by
  rw [List.filter_eq_self]
  intro e he
  simpa using h e he

theorem toList_erase {t : Node K V} (h : Ordered t) (k : K) :
    toList (erase t k) = (toList t).filter (fun e => !decide (e.1 = k)) := by
  induction t with
  | nil => simp [erase, toList]
  | node l a x r ihl ihr =>
    obtain ⟨hl, hr, hla, har⟩ := ordered_node.1 h
    have nl : ∀ e ∈ toList l, e.1 < a := fun e he => hla e.1 (mem_keys.2 ⟨e.2, he⟩)
    have nr : ∀ e ∈ toList r, a < e.1 := fun e he => har e.1 (mem_keys.2 ⟨e.2, he⟩)
    simp only [erase]
    rcases lt_trichotomy k a with h1 | h1 | h1
    · rw [if_pos h1]
      have : (toList r).filter (fun e => !decide (e.1 = k)) = toList r :=
        filter_key_ne_of_lt fun e he => ne_of_gt (lt_trans h1 (nr e he))
      simp [toList, ihl hl, List.filter_cons, ne_of_gt h1, this]
    · subst h1
      simp only [lt_irrefl, if_false]
      have fl : (toList l).filter (fun e => !decide (e.1 = k)) = toList l :=
        filter_key_ne_of_lt fun e he => ne_of_lt (nl e he)
      have fr : (toList r).filter (fun e => !decide (e.1 = k)) = toList r :=
        filter_key_ne_of_lt fun e he => ne_of_gt (nr e he)
      have key : (toList (node l k x r)).filter (fun e => !decide (e.1 = k)) =
          toList l ++ toList r := by
        simp [toList, List.filter_cons, fl, fr]
      rw [key]
      split
      · simp [toList]
      · rename_i hs
        rw [splitMin_eq_none hs]
        simp [toList]
      · rename_i k1 v1 r1 hs
        simp [toList, toList_splitMin hs]
    · rw [if_neg (not_lt_of_lt h1), if_pos h1]
      have : (toList l).filter (fun e => !decide (e.1 = k)) = toList l :=
        filter_key_ne_of_lt fun e he => ne_of_lt (lt_trans (nl e he) h1)
      simp [toList, ihr hr, List.filter_cons, ne_of_lt h1, this]

theorem Ordered.erase {t : Node K V} (h : Ordered t) (k : K) : Ordered (erase t k) := by
  unfold Ordered keys
  rw [toList_erase h]
  exact List.Pairwise.sublist (List.Sublist.map _ (List.filter_sublist _)) h

theorem find_erase {t : Node K V} (h : Ordered t) (k k' : K) :
    find (erase t k) k' = if k' = k then none else find t k' := by
  apply Option.ext
  intro v
  simp only [Option.mem_def]
  rw [find_eq_some_iff (h.erase k), toList_erase h]
  by_cases hk : k' = k
  · simp [hk]
  · simp [hk, find_eq_some_iff h]

theorem rangeFold_eq {σ : Type} {t : Node K V} (h : Ordered t) (lo hi : K)
    (visit : σ → K → V → σ) (s : σ) :
    rangeFold lo hi visit t s =
      ((toList t).filter (fun e => decide (lo ≤ e.1 ∧ e.1 ≤ hi))).foldl
        (fun acc e => visit acc e.1 e.2) s := by
  induction t generalizing s with
  | nil => simp [rangeFold, toList]
  | node l a x r ihl ihr =>
    obtain ⟨hl, hr, hla, har⟩ := ordered_node.1 h
    have nl : ∀ e ∈ toList l, e.1 < a := fun e he => hla e.1 (mem_keys.2 ⟨e.2, he⟩)
    have nr : ∀ e ∈ toList r, a < e.1 := fun e he => har e.1 (mem_keys.2 ⟨e.2, he⟩)
    have fl : ¬ lo < a → (toList l).filter (fun e => decide (lo ≤ e.1 ∧ e.1 ≤ hi)) = [] := by
      intro hlo
      rw [List.filter_eq_nil_iff]
      intro e he
      have := nl e he
      have : ¬ lo ≤ e.1 := fun h' => hlo (lt_of_le_of_lt h' this)
      simp [this]
    have fr : ¬ a < hi → (toList r).filter (fun e => decide (lo ≤ e.1 ∧ e.1 ≤ hi)) = [] := by
      intro hhi
      rw [List.filter_eq_nil_iff]
      intro e he
      have := nr e he
      have : ¬ e.1 ≤ hi := fun h' => hhi (lt_of_lt_of_le this h')
      simp [this]
    simp only [rangeFold, toList, List.filter_append, List.foldl_append, List.filter_cons]
    have e1 : (if lo < a then rangeFold lo hi visit l s else s) =
        ((toList l).filter (fun e => decide (lo ≤ e.1 ∧ e.1 ≤ hi))).foldl
          (fun acc e => visit acc e.1 e.2) s := by
      by_cases hlo : lo < a
      · rw [if_pos hlo, ihl hl]
      · rw [if_neg hlo, fl hlo]; rfl
    rw [e1]
    by_cases hin : lo ≤ a ∧ a ≤ hi
    · simp only [hin, and_self, decide_True, if_true, List.foldl_cons]
      by_cases hhi : a < hi
      · rw [if_pos hhi, ihr hr]
      · rw [if_neg hhi, fr hhi]; rfl
    · simp only [hin, decide_False, if_false, Bool.false_eq_true]
      by_cases hhi : a < hi
      · rw [if_pos hhi, ihr hr]
      · rw [if_neg hhi, fr hhi]; rfl

end Node

/-! ## Components of the state after a call -/

theorem insertRecord_snd (e : Engine) (r : Record) :
    (insertRecord e r).2 = (e.heap.length : Int) := by
  unfold insertRecord
  dsimp only
  split <;> rfl

theorem insertRecord_heap (e : Engine) (r : Record) :
    (insertRecord e r).1.heap = e.heap ++ [{ r with deleted := false }] := by
  unfold insertRecord
  dsimp only
  split <;> rfl

theorem insertRecord_idRoot (e : Engine) (r : Record) :
    (insertRecord e r).1.idIndex.root = e.idIndex.root.insert r.id (e.heap.length : Int) := by
  unfold insertRecord
  dsimp only
  split <;> rfl

theorem insertRecord_lastRoot (e : Engine) (r : Record) :
    (insertRecord e r).1.lastIndex.root =
      match e.lastIndex.root.find (toLower r.last) with
      | none => e.lastIndex.root.insert (toLower r.last) [(e.heap.length : Int)]
      | some v => e.lastIndex.root.write (toLower r.last) (v ++ [(e.heap.length : Int)]) := by
  unfold insertRecord
  dsimp only [BST.find]
  split <;> rfl

theorem insertRecord_lastFind (e : Engine) (r : Record) (s : Str) :
    (insertRecord e r).1.lastIndex.root.find s =
      if s = toLower r.last then some (bucket e s ++ [(e.heap.length : Int)])
      else e.lastIndex.root.find s := by
  rw [insertRecord_lastRoot]
  split
  · rename_i h
    rw [Node.find_insert]
    by_cases hs : s = toLower r.last
    · subst hs; simp [bucket, h]
    · simp [hs]
  · rename_i v h
    rw [Node.find_write]
    by_cases hs : s = toLower r.last
    · subst hs; simp [bucket, h]
    · simp [hs]

theorem insertRecord_bucket (e : Engine) (r : Record) (s : Str) :
    bucket (insertRecord e r).1 s =
      if s = toLower r.last then bucket e s ++ [(e.heap.length : Int)] else bucket e s := by
  unfold bucket
  rw [insertRecord_lastFind]
  split <;> rfl

theorem insertRecord_lastOrdered (e : Engine) (r : Record) (h : e.lastIndex.root.Ordered) :
    (insertRecord e r).1.lastIndex.root.Ordered := by
  rw [insertRecord_lastRoot]
  split
  · exact h.insert _ _
  · exact h.write _ _

theorem deleteById_cases (e : Engine) (k : Int) :
    ((deleteById e k).2 = false ∧
        (deleteById e k).1 = { e with idIndex := (e.idIndex.find k).1 }) ∨
      ∃ (n : Nat) (r : Record),
        e.idIndex.root.find k = some (n : Int) ∧ e.heap[n]? = some r ∧ r.deleted = false ∧
        (deleteById e k).2 = true ∧
        (deleteById e k).1.heap = e.heap.set n { r with deleted := true } ∧
        (deleteById e k).1.idIndex.root = e.idIndex.root.erase k ∧
        (deleteById e k).1.lastIndex.root =
          lastRootAfterDelete e.lastIndex.root (toLower r.last) n := by
  unfold deleteById
  dsimp only [BST.find]
  split
  · exact Or.inl ⟨rfl, rfl⟩
  · rename_i rid hfind
    split
    · exact Or.inl ⟨rfl, rfl⟩
    · rename_i hb
      push_neg at hb
      split
      · exact Or.inl ⟨rfl, rfl⟩
      · rename_i r hr
        split
        · exact Or.inl ⟨rfl, rfl⟩
        · rename_i hd
          right
          have hrid : ((rid.toNat : Nat) : Int) = rid := Int.toNat_of_nonneg hb.1
          refine ⟨rid.toNat, r, ?_, hr, by simpa using hd, ?_⟩
          · rw [hrid]; exact hfind
          · unfold lastRootAfterDelete
            rw [hrid]
            split
            · simp [BST.erase]
            · split <;> simp [BST.erase, BST.write]

theorem find_lastRootAfterDelete {root : Node Str (List Int)} (h : root.Ordered)
    (key : Str) (n : Nat) (s : Str) :
    (lastRootAfterDelete root key n).find s =
      if s = key then
        (match root.find key with
         | none => none
         | some v => if v.erase (n : Int) = [] then none else some (v.erase (n : Int)))
      else root.find s := by
  unfold lastRootAfterDelete
  split
  · rename_i hv
    by_cases hs : s = key
    · subst hs; simp [hv]
    · simp [hs]
  · rename_i v hv
    by_cases he : v.erase (n : Int) = []
    · simp only [he, List.isEmpty_nil, if_true]
      rw [Node.find_erase (h.write _ _), Node.find_write]
      by_cases hs : s = key <;> simp [hs]
    · have : (v.erase (n : Int)).isEmpty = false := by
        cases hx : v.erase (n : Int) with
        | nil => exact absurd hx he
        | cons a l => rfl
      simp only [this, Bool.false_eq_true, if_false, he]
      rw [Node.find_write]
      by_cases hs : s = key
      · subst hs; simp [hv]
      · simp [hs]

theorem ordered_lastRootAfterDelete {root : Node Str (List Int)} (h : root.Ordered)
    (key : Str) (n : Nat) : (lastRootAfterDelete root key n).Ordered := by
  unfold lastRootAfterDelete
  split
  · exact h
  · split
    · exact (h.write _ _).erase _
    · exact h.write _ _

/-! ## Heap facts -/

theorem liveKey_append_lt (heap : List Record) (r : Record) (s : Str) {m : Nat}
    (h : m < heap.length) : liveKey (heap ++ [r]) m s = liveKey heap m s := by
  unfold liveKey
  rw [List.getElem?_append_left h]

theorem liveKey_append_self (heap : List Record) (r : Record) (s : Str) :
    liveKey (heap ++ [r]) heap.length s = (!r.deleted && decide (toLower r.last = s)) := by
  unfold liveKey
  simp

theorem filter_liveKey_append (heap : List Record) (r : Record) (s : Str) :
    (List.range (heap ++ [r]).length).filter (fun n => liveKey (heap ++ [r]) n s) =
      (List.range heap.length).filter (fun n => liveKey heap n s) ++
        (if (!r.deleted && decide (toLower r.last = s)) = true then [heap.length] else []) := by
  rw [List.length_append, List.length_singleton, List.range_succ, List.filter_append]
  congr 1
  · apply List.filter_congr
    intro m hm
    exact liveKey_append_lt heap r s (List.mem_range.1 hm)
  · simp only [List.filter_cons, List.filter_nil, liveKey_append_self]

theorem current_append_same (heap : List Record) (r : Record) (m : Nat) :
    Current (heap ++ [r]) m r.id ↔ m = heap.length ∧ r.deleted = false := by
  constructor
  · rintro ⟨r0, h0, hid, hdel, hlater⟩
    rcases lt_trichotomy m heap.length with h | h | h
    · exact absurd rfl (hlater heap.length r h (by simp))
    · subst h
      simp at h0
      subst h0
      exact ⟨rfl, hdel⟩
    · rw [List.getElem?_eq_none (by simp; omega)] at h0
      exact absurd h0 (by simp)
  · rintro ⟨rfl, hdel⟩
    refine ⟨r, by simp, rfl, hdel, ?_⟩
    intro m r1 hm h1
    rw [List.getElem?_eq_none (by simp; omega)] at h1
    exact absurd h1 (by simp)

theorem current_append_other (heap : List Record) (r : Record) (m : Nat) {k : Int}
    (hk : k ≠ r.id) : Current (heap ++ [r]) m k ↔ Current heap m k := by
  constructor
  · rintro ⟨r0, h0, hid, hdel, hlater⟩
    have hm : m < heap.length := by
      by_contra hge
      rcases Nat.lt_or_ge heap.length m with h | h
      · rw [List.getElem?_eq_none (by simp; omega)] at h0
        exact absurd h0 (by simp)
      · have : m = heap.length := by omega
        subst this
        simp at h0
        subst h0
        exact hk hid.symm
    rw [List.getElem?_append_left hm] at h0
    refine ⟨r0, h0, hid, hdel, ?_⟩
    intro m1 r1 hlt h1
    have hm1 : m1 < heap.length := by
      by_contra hge
      rw [List.getElem?_eq_none (by omega)] at h1
      exact absurd h1 (by simp)
    exact hlater m1 r1 hlt (by rw [List.getElem?_append_left hm1]; exact h1)
  · rintro ⟨r0, h0, hid, hdel, hlater⟩
    have hm : m < heap.length := by
      by_contra hge
      rw [List.getElem?_eq_none (by omega)] at h0
      exact absurd h0 (by simp)
    refine ⟨r0, by rw [List.getElem?_append_left hm]; exact h0, hid, hdel, ?_⟩
    intro m1 r1 hlt h1
    rcases lt_trichotomy m1 heap.length with h | h | h
    · rw [List.getElem?_append_left h] at h1
      exact hlater m1 r1 hlt h1
    · subst h
      simp at h1
      subst h1
      exact fun e => hk e.symm
    · rw [List.getElem?_eq_none (by simp; omega)] at h1
      exact absurd h1 (by simp)

theorem inv_empty : Inv Engine.empty := by
  refine ⟨Node.ordered_nil, Node.ordered_nil, ?_, ?_, ?_⟩
  · intro k rid
    simp [Engine.empty, BST.empty, Node.find, Current]
  · intro s
    simp [Engine.empty, BST.empty, bucket, Node.find]
  · intro s
    simp [Engine.empty, BST.empty, Node.find]

theorem inv_insertRecord {e : Engine} (h : Inv e) (r : Record) : Inv (insertRecord e r).1 := by
  refine ⟨?_, insertRecord_lastOrdered e r h.ordLast, ?_, ?_, ?_⟩
  · rw [insertRecord_idRoot]
    exact h.ordId.insert _ _
  · intro k rid
    rw [insertRecord_idRoot, insertRecord_heap, Node.find_insert]
    by_cases hk : k = r.id
    · subst hk
      simp only [if_true, Option.some.injEq]
      have := fun m => current_append_same e.heap { r with deleted := false } m
      simp only [and_true] at this
      constructor
      · intro hr
        exact ⟨e.heap.length, hr.symm, (this _).2 rfl⟩
      · rintro ⟨n, rfl, hn⟩
        rw [(this n).1 hn]
    · simp only [if_neg hk]
      rw [h.idExact]
      have := fun m => current_append_other e.heap { r with deleted := false } m (k := k) hk
      simp only [this]
  · intro s
    rw [insertRecord_bucket, insertRecord_heap, filter_liveKey_append, h.lastExact s]
    by_cases hs : s = toLower r.last
    · subst hs
      simp
    · have : ¬ toLower r.last = s := fun e => hs e.symm
      simp [hs, this]
  · intro s
    rw [insertRecord_lastFind]
    by_cases hs : s = toLower r.last
    · simp [hs]
    · simp only [if_neg hs]
      exact h.noEmpty s

theorem getElem?_tombstone (heap : List Record) (n : Nat) (r : Record)
    (hr : heap[n]? = some r) (m : Nat) :
    (heap.set n { r with deleted := true })[m]? =
      if m = n then some { r with deleted := true } else heap[m]? := by
  have hn : n < heap.length := by
    by_contra hge
    rw [List.getElem?_eq_none (by omega)] at hr
    exact absurd hr (by simp)
  by_cases hm : m = n
  · subst hm
    simp [hn]
  · rw [if_neg hm, List.getElem?_set_ne (fun e => hm e.symm)]

theorem liveKey_tombstone (heap : List Record) (n : Nat) (r : Record)
    (hr : heap[n]? = some r) (m : Nat) (s : Str) :
    liveKey (heap.set n { r with deleted := true }) m s =
      (liveKey heap m s && !decide (m = n)) := by
  unfold liveKey
  rw [getElem?_tombstone heap n r hr]
  by_cases hm : m = n
  · simp [hm]
  · simp [hm]

theorem current_tombstone (heap : List Record) (n : Nat) (r : Record)
    (hr : heap[n]? = some r) (m : Nat) (k : Int) :
    Current (heap.set n { r with deleted := true }) m k ↔ m ≠ n ∧ Current heap m k := by
  have ids : ∀ (j : Nat) (r1 : Record), (heap.set n { r with deleted := true })[j]? = some r1 →
      ∃ r2, heap[j]? = some r2 ∧ r2.id = r1.id := by
    intro j r1 h1
    rw [getElem?_tombstone heap n r hr] at h1
    by_cases hj : j = n
    · subst hj
      rw [if_pos rfl] at h1
      exact ⟨r, hr, by rw [← Option.some.inj h1]⟩
    · rw [if_neg hj] at h1
      exact ⟨r1, h1, rfl⟩
  have ids2 : ∀ (j : Nat) (r2 : Record), heap[j]? = some r2 →
      ∃ r1, (heap.set n { r with deleted := true })[j]? = some r1 ∧ r1.id = r2.id := by
    intro j r2 h2
    rw [getElem?_tombstone heap n r hr]
    by_cases hj : j = n
    · subst hj
      rw [if_pos rfl]
      rw [hr] at h2
      exact ⟨_, rfl, by rw [← Option.some.inj h2]⟩
    · rw [if_neg hj]
      exact ⟨r2, h2, rfl⟩
  constructor
  · rintro ⟨r0, h0, hid, hdel, hlater⟩
    rw [getElem?_tombstone heap n r hr] at h0
    by_cases hm : m = n
    · rw [if_pos hm] at h0
      rw [← Option.some.inj h0] at hdel
      simp at hdel
    · rw [if_neg hm] at h0
      refine ⟨hm, r0, h0, hid, hdel, ?_⟩
      intro j r2 hj h2
      obtain ⟨r1, h1, e1⟩ := ids2 j r2 h2
      rw [← e1]
      exact hlater j r1 hj h1
  · rintro ⟨hm, r0, h0, hid, hdel, hlater⟩
    refine ⟨r0, ?_, hid, hdel, ?_⟩
    · rw [getElem?_tombstone heap n r hr, if_neg hm]
      exact h0
    · intro j r1 hj h1
      obtain ⟨r2, h2, e2⟩ := ids j r1 h1
      rw [← e2]
      exact hlater j r2 hj h2

theorem nodup_liveList (heap : List Record) (s : Str) :
    (((List.range heap.length).filter (fun n => liveKey heap n s)).map Int.ofNat).Nodup :=
  ((List.nodup_range _).filter _).map Int.ofNat_injective

theorem erase_liveList (heap : List Record) (n : Nat) (r : Record)
    (hr : heap[n]? = some r) (s : Str) :
    (((List.range heap.length).filter (fun m => liveKey heap m s)).map Int.ofNat).erase (n : Int) =
      ((List.range (heap.set n { r with deleted := true }).length).filter
        (fun m => liveKey (heap.set n { r with deleted := true }) m s)).map Int.ofNat := by
  rw [(nodup_liveList heap s).erase_eq_filter, List.filter_map, List.filter_filter,
    List.length_set]
  congr 1
  apply List.filter_congr
  intro m _
  rw [liveKey_tombstone heap n r hr]
  have : ((m : Int) != (n : Int)) = !decide (m = n) := by
    by_cases hmn : m = n <;> simp [hmn]
  simp [this, Bool.and_comm]

theorem inv_deleteById {e : Engine} (h : Inv e) (k : Int) : Inv (deleteById e k).1 := by
  rcases deleteById_cases e k with ⟨-, he⟩ | ⟨n, r, hfind, hr, hdel, -, hheap, hid, hlast⟩
  · rw [he]
    exact ⟨h.ordId, h.ordLast, h.idExact, h.lastExact, h.noEmpty⟩
  · have hcur : Current e.heap n k := by
      obtain ⟨n1, e1, c1⟩ := (h.idExact k n).1 hfind
      have : n = n1 := by exact_mod_cast e1
      rw [this]; exact c1
    have hrid : r.id = k := by
      obtain ⟨r0, h0, hid0, -⟩ := hcur
      rw [hr] at h0
      rw [Option.some.inj h0]; exact hid0
    have hb : ∀ s, bucket (deleteById e k).1 s =
        if s = toLower r.last then (bucket e s).erase (n : Int) else bucket e s := by
      intro s
      unfold bucket
      rw [hlast, find_lastRootAfterDelete h.ordLast]
      by_cases hs : s = toLower r.last
      · subst hs
        simp only [if_true]
        cases hv : e.lastIndex.root.find (toLower r.last) with
        | none => simp
        | some v =>
          by_cases hx : v.erase (n : Int) = [] <;> simp [hx]
      · simp [hs]
    refine ⟨?_, ?_, ?_, ?_, ?_⟩
    · rw [hid]; exact h.ordId.erase k
    · rw [hlast]; exact ordered_lastRootAfterDelete h.ordLast _ _
    · intro k1 rid
      rw [hid, hheap, Node.find_erase h.ordId]
      simp only [current_tombstone e.heap n r hr]
      by_cases hk : k1 = k
      · subst hk
        simp only [if_true]
        constructor
        · intro hx; exact absurd hx (by simp)
        · rintro ⟨m, -, hm, hc⟩
          have := (h.idExact k1 m).2 ⟨m, rfl, hc⟩
          rw [hfind] at this
          exact absurd (by exact_mod_cast (Option.some.inj this).symm) hm
      · rw [if_neg hk, h.idExact]
        constructor
        · rintro ⟨m, hm, hc⟩
          refine ⟨m, hm, ?_, hc⟩
          rintro rfl
          obtain ⟨r0, h0, hid0, -⟩ := hc
          rw [hr] at h0
          rw [← Option.some.inj h0, hrid] at hid0
          exact hk hid0.symm
        · rintro ⟨m, hm, -, hc⟩
          exact ⟨m, hm, hc⟩
    · intro s
      rw [hb, hheap]
      by_cases hs : s = toLower r.last
      · rw [if_pos hs, h.lastExact s]
        exact erase_liveList e.heap n r hr s
      · rw [if_neg hs, h.lastExact s, ← erase_liveList e.heap n r hr s]
        symm
        apply List.erase_of_not_mem
        simp only [List.mem_map, List.mem_filter, List.mem_range, not_exists, not_and]
        rintro m ⟨-, hl⟩ hmn
        have : m = n := Int.ofNat.inj hmn
        subst this
        unfold liveKey at hl
        rw [hr] at hl
        simp at hl
        exact hs hl.2.symm
    · intro s
      rw [hlast, find_lastRootAfterDelete h.ordLast]
      by_cases hs : s = toLower r.last
      · subst hs
        simp only [if_true]
        cases hv : e.lastIndex.root.find (toLower r.last) with
        | none => simp
        | some v =>
          by_cases hx : v.erase (n : Int) = [] <;> simp [hx]
      · rw [if_neg hs]
        exact h.noEmpty s

theorem inv_of_reachable {e : Engine} (h : Reachable e) : Inv e := by
  induction h with
  | empty => exact inv_empty
  | insert e r _ ih => exact inv_insertRecord ih r
  | delete e k _ ih => exact inv_deleteById ih k

theorem reachable_run (ops : List Op) : Reachable (run ops) := by
  unfold run
  have : ∀ (l : List Op) (e : Engine), Reachable e → Reachable (l.foldl step e) := by
    intro l
    induction l with
    | nil => intro e he; exact he
    | cons op l ih =>
      intro e he
      apply ih
      cases op with
      | insert r => exact Reachable.insert e r he
      | delete k => exact Reachable.delete e k he
  exact this ops _ Reachable.empty

/-! ## The queries -/

theorem foldl_push {α β : Type} (p : α → Bool) (g : α → β) (l : List α) (init : List β) :
    l.foldl (fun acc a => if p a = true then acc ++ [g a] else acc) init =
      init ++ (l.filter p).map g := by
  induction l generalizing init with
  | nil => simp
  | cons a l ih =>
    simp only [List.foldl_cons, ih, List.filter_cons]
    by_cases h : p a = true <;> simp [h]

theorem foldl_pushAll {α β : Type} (p : α → Bool) (g : α → List β) (l : List α)
    (init : List β) :
    l.foldl (fun acc a => if p a = true then acc ++ g a else acc) init =
      init ++ ((l.filter p).map g).flatten := by
  induction l generalizing init with
  | nil => simp
  | cons a l ih =>
    simp only [List.foldl_cons, ih, List.filter_cons]
    by_cases h : p a = true <;> simp [h]

theorem keyMatches_iff (key low : Str) : keyMatches key low = true ↔ low <+: key := by
  unfold keyMatches
  simp only [Bool.and_eq_true, Bool.not_eq_true', decide_eq_false_iff_not, not_lt,
    List.all_eq_true, List.mem_range, beq_iff_eq]
  constructor
  · rintro ⟨hlen, hall⟩
    rw [List.prefix_iff_eq_take]
    apply List.ext_getElem
    · simp [hlen]
    · intro i h1 h2
      have := hall i h1
      rw [List.getD_eq_getElem _ _ (by omega), List.getD_eq_getElem _ _ h1] at this
      simp [this]
  · rintro ⟨t, rfl⟩
    refine ⟨by simp, ?_⟩
    intro i hi
    rw [List.getD_eq_getElem _ _ (by simp; omega), List.getD_eq_getElem _ _ hi,
      List.getElem_append_left hi]

theorem liveSlot_ofNat (heap : List Record) (n : Nat) :
    liveSlot heap (n : Int) = true ↔ Live heap n := by
  unfold liveSlot Live
  simp only [Int.toNat_ofNat, Bool.and_eq_true, decide_eq_true_eq, Int.ofNat_nonneg,
    true_and, Nat.cast_lt]
  constructor
  · rintro ⟨hn, hm⟩
    cases hx : heap[n]? with
    | none => rw [hx] at hm; simp at hm
    | some r => rw [hx] at hm; exact ⟨r, rfl, by simpa using hm⟩
  · rintro ⟨r, hr, hd⟩
    have hn : n < heap.length := by
      by_contra hge
      rw [List.getElem?_eq_none (by omega)] at hr
      exact absurd hr (by simp)
    refine ⟨hn, ?_⟩
    rw [hr]; simp [hd]

theorem Current.live {heap : List Record} {n : Nat} {k : Int} (h : Current heap n k) :
    Live heap n := by
  obtain ⟨r, hr, -, hd, -⟩ := h
  exact ⟨r, hr, hd⟩

theorem Current.idAt {heap : List Record} {n : Nat} {k : Int} (h : Current heap n k) :
    idAt heap n = k := by
  obtain ⟨r, hr, hid, -, -⟩ := h
  simp [MiniDB.idAt, hr, hid]

theorem liveKey_iff (heap : List Record) (n : Nat) (s : Str) :
    liveKey heap n s = true ↔ Live heap n ∧ keyAt heap n = s := by
  unfold liveKey Live keyAt
  cases hx : heap[n]? with
  | none => simp
  | some r => simp

theorem Live.lt_length {heap : List Record} {n : Nat} (h : Live heap n) : n < heap.length := by
  obtain ⟨r, hr, -⟩ := h
  by_contra hge
  rw [List.getElem?_eq_none (by omega)] at hr
  exact absurd hr (by simp)

/-- Under the invariant, the output of `rangeById` is the list of the positions
stored under the keys of `[lo, hi]`, in key order. -/
theorem rangeById_result {e : Engine} (h : Inv e) (lo hi : Int) :
    (rangeById e lo hi).2.1 =
      ((e.idIndex.root.toList).filter (fun x => decide (lo ≤ x.1 ∧ x.1 ≤ hi))).map
        (fun x => x.2.toNat) := by
  unfold rangeById BST.rangeApply BST.resetMetrics
  dsimp only
  rw [Node.rangeFold_eq h.ordId,
    foldl_push (fun x : Int × Int => liveSlot e.heap x.2) (fun x => x.2.toNat)]
  simp only [List.nil_append]
  congr 1
  rw [List.filter_eq_self]
  rintro ⟨k, rid⟩ hx
  have hx1 := (List.mem_filter.1 hx).1
  obtain ⟨n, rfl, hc⟩ := (h.idExact k rid).1 ((Node.find_eq_some_iff h.ordId k rid).2 hx1)
  exact (liveSlot_ofNat e.heap n).2 hc.live

theorem mem_rangeById {e : Engine} (h : Inv e) (lo hi : Int) (p : Nat) :
    p ∈ (rangeById e lo hi).2.1 ↔ ∃ k, lo ≤ k ∧ k ≤ hi ∧ Current e.heap p k := by
  rw [rangeById_result h]
  simp only [List.mem_map, List.mem_filter, decide_eq_true_eq, Prod.exists]
  constructor
  · rintro ⟨k, rid, ⟨hx, hlo, hhi⟩, rfl⟩
    obtain ⟨n, rfl, hc⟩ := (h.idExact k rid).1 ((Node.find_eq_some_iff h.ordId k rid).2 hx)
    exact ⟨k, hlo, hhi, by simpa using hc⟩
  · rintro ⟨k, hlo, hhi, hc⟩
    refine ⟨k, (p : Int), ⟨?_, hlo, hhi⟩, by simp⟩
    exact (Node.find_eq_some_iff h.ordId k _).1 ((h.idExact k p).2 ⟨p, rfl, hc⟩)

theorem rangeById_ids {e : Engine} (h : Inv e) (lo hi : Int) :
    (rangeById e lo hi).2.1.map (idAt e.heap) =
      ((e.idIndex.root.toList).filter (fun x => decide (lo ≤ x.1 ∧ x.1 ≤ hi))).map Prod.fst := by
  rw [rangeById_result h, List.map_map]
  apply List.map_congr_left
  rintro ⟨k, rid⟩ hx
  have hx1 := (List.mem_filter.1 hx).1
  obtain ⟨n, rfl, hc⟩ := (h.idExact k rid).1 ((Node.find_eq_some_iff h.ordId k rid).2 hx1)
  simpa using hc.idAt

theorem rangeById_sorted {e : Engine} (h : Inv e) (lo hi : Int) :
    ((rangeById e lo hi).2.1.map (idAt e.heap)).Pairwise (· < ·) := by
  rw [rangeById_ids h]
  exact List.Pairwise.sublist (List.Sublist.map _ (List.filter_sublist _)) h.ordId

theorem nodup_of_map_pairwise_lt {α : Type} (f : α → Int) (l : List α)
    (h : (l.map f).Pairwise (· < ·)) : l.Nodup := by
  have : (l.map f).Nodup := h.imp (fun hab => ne_of_lt hab)
  exact List.Nodup.of_map f this

/-- Under the invariant, the output of `prefixByLast` is the concatenation, in
key order, of the live positions filed under the visited keys that start with
the lower-cased prefix. -/
theorem prefixByLast_result {e : Engine} (h : Inv e) (pfx : Str) :
    (prefixByLast e pfx).2.1 =
      ((((e.lastIndex.root.toList).filter
          (fun x => decide (toLower pfx ≤ x.1 ∧ x.1 ≤ toLower pfx ++ [127]))).filter
          (fun x => keyMatches x.1 (toLower pfx))).map
        (fun x => (List.range e.heap.length).filter (fun n => liveKey e.heap n x.1))).flatten := by
  unfold prefixByLast BST.rangeApply BST.resetMetrics
  dsimp only
  rw [Node.rangeFold_eq h.ordLast]
  have hv : (fun (acc : List Nat) (x : Str × List Int) =>
      if keyMatches x.1 (toLower pfx) = true then
        x.2.foldl (fun (acc : List Nat) (rid : Int) =>
          if liveSlot e.heap rid = true then acc ++ [rid.toNat] else acc) acc
      else acc) =
      (fun (acc : List Nat) (x : Str × List Int) =>
        if keyMatches x.1 (toLower pfx) = true then
          acc ++ (x.2.filter (liveSlot e.heap)).map Int.toNat
        else acc) := by
    funext acc x
    rw [foldl_push]
  rw [hv, foldl_pushAll (fun x : Str × List Int => keyMatches x.1 (toLower pfx))
    (fun x => (x.2.filter (liveSlot e.heap)).map Int.toNat)]
  simp only [List.nil_append]
  congr 1
  apply List.map_congr_left
  rintro ⟨s, v⟩ hx
  have hx1 := (List.mem_filter.1 (List.mem_filter.1 hx).1).1
  have hf := (Node.find_eq_some_iff h.ordLast s v).2 hx1
  have hb := h.lastExact s
  simp only [bucket, hf, Option.getD_some] at hb
  subst hb
  simp only
  rw [List.filter_map, List.map_map]
  have : (Int.toNat ∘ Int.ofNat) = id := by funext n; simp
  rw [this, List.map_id, List.filter_filter]
  apply List.filter_congr
  intro n hn
  simp only [Function.comp]
  by_cases hl : liveKey e.heap n s = true
  · have := (liveSlot_ofNat e.heap n).2 ((liveKey_iff e.heap n s).1 hl).1
    simp only [Int.ofNat_eq_coe, this, hl, Bool.and_self]
  · simp [hl]

/-! ## Byte strings and the sentinel bound -/

theorem le_of_isPrefix {low key : Str} (h : low <+: key) : low ≤ key := by
  obtain ⟨t, rfl⟩ := h
  cases t with
  | nil => simp
  | cons c t =>
    apply le_of_lt
    have h0 : List.Lex (· < ·) ([] : Str) (c :: t) := List.Lex.nil
    simpa using List.Lex.append_left (· < ·) h0 low

theorem append_le_sentinel (low t : Str) (ht : ∀ c ∈ t, c < 127) : low ++ t ≤ low ++ [127] := by
  apply le_of_lt
  cases t with
  | nil =>
    have h0 : List.Lex (· < ·) ([] : Str) [127] := List.Lex.nil
    simpa using List.Lex.append_left (· < ·) h0 low
  | cons c t =>
    have h0 : List.Lex (· < ·) (c :: t) [127] := List.Lex.rel (ht c (by simp))
    exact List.Lex.append_left (· < ·) h0 low

theorem toLowerChar_lt {c : Nat} (h : c < 127) : toLowerChar c < 127 := by
  unfold toLowerChar
  split <;> omega

theorem toLower_lt {s : Str} (h : ∀ c ∈ s, c < 127) : ∀ c ∈ toLower s, c < 127 := by
  intro c hc
  simp only [toLower, List.mem_map] at hc
  obtain ⟨a, ha, rfl⟩ := hc
  exact toLowerChar_lt (h a ha)

/-! ## Membership and order of the result of `prefixByLast` -/

theorem mem_lastIndex_of_liveKey {e : Engine} (h : Inv e) {n : Nat} {s : Str}
    (hl : liveKey e.heap n s = true) : (s, bucket e s) ∈ e.lastIndex.root.toList := by
  have hb := h.lastExact s
  have hn : n < e.heap.length := ((liveKey_iff e.heap n s).1 hl).1.lt_length
  have hmem : (n : Int) ∈ bucket e s := by
    rw [hb]
    exact List.mem_map.2 ⟨n, List.mem_filter.2 ⟨List.mem_range.2 hn, hl⟩, rfl⟩
  rw [← Node.find_eq_some_iff h.ordLast]
  unfold bucket at hmem ⊢
  cases hf : e.lastIndex.root.find s with
  | none => rw [hf] at hmem; simp at hmem
  | some v => rfl

theorem mem_prefixByLast {e : Engine} (h : Inv e) (pfx : Str) (p : Nat) :
    p ∈ (prefixByLast e pfx).2.1 ↔
      Live e.heap p ∧ toLower pfx <+: keyAt e.heap p ∧
        keyAt e.heap p ≤ toLower pfx ++ [127] := by
  rw [prefixByLast_result h]
  simp only [List.mem_flatten, List.mem_map, List.mem_filter, decide_eq_true_eq, Prod.exists,
    keyMatches_iff]
  constructor
  · rintro ⟨l, ⟨s, v, ⟨⟨hx, -, hhi⟩, hpre⟩, rfl⟩, hp⟩
    obtain ⟨-, hl⟩ := List.mem_filter.1 hp
    obtain ⟨hlive, hkey⟩ := (liveKey_iff e.heap p s).1 hl
    rw [hkey]
    exact ⟨hlive, hpre, hhi⟩
  · rintro ⟨hlive, hpre, hhi⟩
    have hl : liveKey e.heap p (keyAt e.heap p) = true := (liveKey_iff _ _ _).2 ⟨hlive, rfl⟩
    refine ⟨_, ⟨keyAt e.heap p, bucket e (keyAt e.heap p),
      ⟨⟨mem_lastIndex_of_liveKey h hl, le_of_isPrefix hpre, hhi⟩, hpre⟩, rfl⟩, ?_⟩
    exact List.mem_filter.2 ⟨List.mem_range.2 hlive.lt_length, hl⟩

theorem prefixByLast_sorted {e : Engine} (h : Inv e) (pfx : Str) :
    (prefixByLast e pfx).2.1.Pairwise
      (fun a b => keyAt e.heap a < keyAt e.heap b ∨
        (keyAt e.heap a = keyAt e.heap b ∧ a < b)) := by
  rw [prefixByLast_result h, List.pairwise_flatten]
  constructor
  · intro l hl
    obtain ⟨⟨s, v⟩, -, rfl⟩ := List.mem_map.1 hl
    have hr : (List.range e.heap.length).Pairwise (· < ·) := List.pairwise_lt_range _
    have hf : ((List.range e.heap.length).filter (fun n => liveKey e.heap n s)).Pairwise
        (· < ·) := List.Pairwise.sublist (List.filter_sublist _) hr
    refine List.Pairwise.imp_of_mem ?_ hf
    intro a b ha hb hab
    have ka := ((liveKey_iff e.heap a s).1 (List.mem_filter.1 ha).2).2
    have kb := ((liveKey_iff e.heap b s).1 (List.mem_filter.1 hb).2).2
    exact Or.inr ⟨by rw [ka, kb], hab⟩
  · rw [List.pairwise_map]
    have ho : (e.lastIndex.root.toList).Pairwise (fun x y => x.1 < y.1) := by
      have := h.ordLast
      unfold Node.Ordered Node.keys at this
      exact List.pairwise_map.1 this
    refine List.Pairwise.imp ?_
      (List.Pairwise.sublist ((List.filter_sublist _).trans (List.filter_sublist _)) ho)
    intro x y hxy a ha b hb
    have ka := ((liveKey_iff e.heap a x.1).1 (List.mem_filter.1 ha).2).2
    have kb := ((liveKey_iff e.heap b y.1).1 (List.mem_filter.1 hb).2).2
    exact Or.inl (by rw [ka, kb]; exact hxy)

theorem prefixByLast_nodup {e : Engine} (h : Inv e) (pfx : Str) :
    (prefixByLast e pfx).2.1.Nodup := by
  refine List.Pairwise.imp ?_ (prefixByLast_sorted h pfx)
  intro a b hab hEq
  subst hEq
  rcases hab with h1 | ⟨-, h2⟩
  · exact lt_irrefl _ h1
  · exact lt_irrefl _ h2

/-! ## Range and prefix correctness -/

theorem current_iff_not_superseded (heap : List Record) (p : Nat) (lo hi : Int) :
    (∃ k, lo ≤ k ∧ k ≤ hi ∧ Current heap p k) ↔
      Live heap p ∧ lo ≤ idAt heap p ∧ idAt heap p ≤ hi ∧ ¬ Superseded heap p := by
  constructor
  · rintro ⟨k, hlo, hhi, hc⟩
    have hid := hc.idAt
    refine ⟨hc.live, by rw [hid]; exact hlo, by rw [hid]; exact hhi, ?_⟩
    rintro ⟨m, r, hm, hr, hrid⟩
    obtain ⟨-, -, -, -, hlater⟩ := hc
    exact hlater m r hm hr (by rw [hrid, hid])
  · rintro ⟨⟨r, hr, hd⟩, hlo, hhi, hns⟩
    have hid : idAt heap p = r.id := by simp [idAt, hr]
    refine ⟨r.id, by rw [← hid]; exact hlo, by rw [← hid]; exact hhi, r, hr, rfl, hd, ?_⟩
    intro m r1 hm h1 he
    exact hns ⟨m, r1, hm, h1, by rw [he, hid]⟩

/-- C1 as stated fails: after two inserts with the same id 1, slot 0 still holds
a live record whose id lies in `[1, 1]`, yet `rangeById(1, 1)` returns slot 1
only. -/
theorem C1_rangeById_skips_overwritten_record :
    ¬ (∀ p : Nat, p ∈ (rangeById duplicateIdEngine 1 1).2.1 ↔
        (Live duplicateIdEngine.heap p ∧ 1 ≤ idAt duplicateIdEngine.heap p ∧
          idAt duplicateIdEngine.heap p ≤ 1)) := by
  intro h
  have h0 : 0 ∈ (rangeById duplicateIdEngine 1 1).2.1 :=
    (h 0).2 ⟨⟨⟨1, [97], false⟩, by decide, rfl⟩, by decide, by decide⟩
  revert h0
  decide

/-- C1, amended: in every reachable state and for all `lo ≤ hi`, `rangeById(lo, hi)`
returns exactly the live heap records with id in `[lo, hi]` that no later heap
slot supersedes (no later insert carried the same id), every such record once
and no other record, in strictly ascending id order. -/
theorem C1_rangeById_exact (e : Engine) (h : Reachable e) (lo hi : Int) (hle : lo ≤ hi) :
    (∀ p : Nat, p ∈ (rangeById e lo hi).2.1 ↔
        (Live e.heap p ∧ lo ≤ idAt e.heap p ∧ idAt e.heap p ≤ hi ∧ ¬ Superseded e.heap p)) ∧
      (rangeById e lo hi).2.1.Nodup ∧
      ((rangeById e lo hi).2.1.map (idAt e.heap)).Pairwise (· < ·) := by
  have hi1 := inv_of_reachable h
  refine ⟨?_, ?_, rangeById_sorted hi1 lo hi⟩
  · intro p
    rw [mem_rangeById hi1, current_iff_not_superseded]
  · exact nodup_of_map_pairwise_lt _ _ (rangeById_sorted hi1 lo hi)

/-- C1, amended, on scenario A of the specification: `rangeById(1, 2)`. -/
theorem C1_rangeById_exact_witness :
    Reachable scenarioA ∧ (1 : Int) ≤ 2 ∧
      ((∀ p : Nat, p ∈ (rangeById scenarioA 1 2).2.1 ↔
        (Live scenarioA.heap p ∧ 1 ≤ idAt scenarioA.heap p ∧ idAt scenarioA.heap p ≤ 2 ∧
          ¬ Superseded scenarioA.heap p)) ∧
      (rangeById scenarioA 1 2).2.1.Nodup ∧
      ((rangeById scenarioA 1 2).2.1.map (idAt scenarioA.heap)).Pairwise (· < ·)) :=
  ⟨reachable_run _, by decide,
    C1_rangeById_exact scenarioA (reachable_run _) 1 2 (by decide)⟩

/-- C2: prefix correctness does not hold on the code for a last name with a
byte above the sentinel. After `insertRecord` of the record with id 1 and last
name `a` followed by the byte 200, slot 0 of the heap holds that record, not
tombstoned, and its lower-cased last name starts with `toLower("a")`; yet
`prefixByLast("a")` returns the empty sequence, because the key lies above the
scan bound `"a" + char(127)`. Hence the result is not the set of the live
records whose lower-cased last name starts with the lower-cased prefix. -/
theorem C2_prefixByLast_misses_high_byte :
    highByteEngine.heap = [⟨1, [97, 200], false⟩] ∧
      toLower [97] <+: toLower [97, 200] ∧
      ¬ (toLower [97, 200] ≤ toLower [97] ++ [127]) ∧
      (prefixByLast highByteEngine [97]).2.1 = [] ∧
      ¬ (∀ p : Nat, p ∈ (prefixByLast highByteEngine [97]).2.1 ↔
        (Live highByteEngine.heap p ∧ toLower [97] <+: keyAt highByteEngine.heap p)) := by
  refine ⟨by decide, ⟨[200], by decide⟩, by decide, by decide, ?_⟩
  intro h
  have h0 : 0 ∈ (prefixByLast highByteEngine [97]).2.1 :=
    (h 0).2 ⟨⟨⟨1, [97, 200], false⟩, by decide, rfl⟩, ⟨[200], by decide⟩⟩
  revert h0
  decide

/-! ## Point lookup, insertion and deletion -/

/-- Under the invariant, `findById` returns the slot that `idIndex` keeps for
the id. -/
theorem findById_result {e : Engine} (h : Inv e) (k : Int) :
    (findById e k).2.1 = (e.idIndex.root.find k).map Int.toNat := by
  unfold findById BST.find BST.resetMetrics
  dsimp only
  cases hf : e.idIndex.root.find k with
  | none => rfl
  | some rid =>
    obtain ⟨n, rfl, r, hr, -, hd, -⟩ := (h.idExact k rid).1 hf
    have hn : n < e.heap.length := Live.lt_length ⟨r, hr, hd⟩
    have hb : ¬ ((n : Int) < 0 ∨ (n : Int) ≥ (e.heap.length : Int)) := by
      push_neg
      exact ⟨Int.ofNat_nonneg n, by exact_mod_cast hn⟩
    simp only [if_neg hb, Int.toNat_ofNat, hr, hd, Bool.false_eq_true, if_false, Option.map_some']

theorem deleteById_true_iff (e : Engine) (k : Int) :
    (deleteById e k).2 = true ↔
      ∃ (n : Nat) (r : Record),
        e.idIndex.root.find k = some (n : Int) ∧ e.heap[n]? = some r ∧ r.deleted = false := by
  constructor
  · intro ht
    rcases deleteById_cases e k with ⟨hf, -⟩ | ⟨n, r, h1, h2, h3, -⟩
    · rw [hf] at ht; exact absurd ht (by simp)
    · exact ⟨n, r, h1, h2, h3⟩
  · rintro ⟨n, r, h1, h2, h3⟩
    have hn : n < e.heap.length := Live.lt_length ⟨r, h2, h3⟩
    have hb : ¬ ((n : Int) < 0 ∨ (n : Int) ≥ (e.heap.length : Int)) := by
      push_neg
      exact ⟨Int.ofNat_nonneg n, by exact_mod_cast hn⟩
    unfold deleteById BST.find
    simp only [h1, if_neg hb, Int.toNat_ofNat, h2, h3, Bool.false_eq_true, if_false]
    split
    · rfl
    · split <;> rfl

/-- C3: in a reachable state, when `deleteById(k)` returns true, then in the
resulting state `findById(k)` finds nothing, no `rangeById` result (in
particular none over a range covering `k`) holds a record with id `k`, and the
slot that the call tombstoned (live before, tombstoned after, the one `idIndex`
kept for `k`) occurs in no bucket of `lastIndex`. -/
theorem C3_tombstone_consistency (e : Engine) (h : Reachable e) (k : Int)
    (hd : (deleteById e k).2 = true) :
    (findById (deleteById e k).1 k).2.1 = none ∧
      (∀ (lo hi : Int) (p : Nat), p ∈ (rangeById (deleteById e k).1 lo hi).2.1 →
        idAt (deleteById e k).1.heap p ≠ k) ∧
      (∃ (n : Nat) (r : Record),
        e.idIndex.root.find k = some (n : Int) ∧ e.heap[n]? = some r ∧ r.deleted = false ∧
        (deleteById e k).1.heap[n]? = some { r with deleted := true } ∧
        (n : Int) ∉ bucket (deleteById e k).1 (toLower r.last) ∧
        ∀ s : Str, (n : Int) ∉ bucket (deleteById e k).1 s) := by
  have hi0 := inv_of_reachable h
  have hi1 := inv_deleteById hi0 k
  rcases deleteById_cases e k with ⟨hf, -⟩ | ⟨n, r, hfind, hr, hdel, -, hheap, hid, -⟩
  · rw [hf] at hd; exact absurd hd (by simp)
  · have hnone : (deleteById e k).1.idIndex.root.find k = none := by
      rw [hid, Node.find_erase hi0.ordId]; simp
    have hslot : (deleteById e k).1.heap[n]? = some { r with deleted := true } := by
      rw [hheap, getElem?_tombstone e.heap n r hr, if_pos rfl]
    have hnot : ∀ s : Str, (n : Int) ∉ bucket (deleteById e k).1 s := by
      intro s hmem
      rw [hi1.lastExact s] at hmem
      obtain ⟨m, hm, hmn⟩ := List.mem_map.1 hmem
      have : m = n := Int.ofNat.inj hmn
      subst this
      obtain ⟨⟨r1, h1, hd1⟩, -⟩ := (liveKey_iff _ _ _).1 (List.mem_filter.1 hm).2
      rw [hslot] at h1
      rw [← Option.some.inj h1] at hd1
      simp at hd1
    refine ⟨?_, ?_, n, r, hfind, hr, hdel, hslot, hnot _, hnot⟩
    · rw [findById_result hi1, hnone]; rfl
    · intro lo hi p hp hidp
      obtain ⟨k1, -, -, hc⟩ := (mem_rangeById hi1 lo hi p).1 hp
      have : k1 = k := by rw [← hc.idAt, hidp]
      subst this
      have := (hi1.idExact k1 p).2 ⟨p, rfl, hc⟩
      rw [hnone] at this
      exact absurd this (by simp)

/-- C3 on scenario C of the specification: deleting id 10. -/
theorem C3_tombstone_consistency_witness :
    Reachable scenarioC ∧ (deleteById scenarioC 10).2 = true ∧
      ((findById (deleteById scenarioC 10).1 10).2.1 = none ∧
      (∀ (lo hi : Int) (p : Nat), p ∈ (rangeById (deleteById scenarioC 10).1 lo hi).2.1 →
        idAt (deleteById scenarioC 10).1.heap p ≠ 10) ∧
      (∃ (n : Nat) (r : Record),
        scenarioC.idIndex.root.find 10 = some (n : Int) ∧ scenarioC.heap[n]? = some r ∧
        r.deleted = false ∧
        (deleteById scenarioC 10).1.heap[n]? = some { r with deleted := true } ∧
        (n : Int) ∉ bucket (deleteById scenarioC 10).1 (toLower r.last) ∧
        ∀ s : Str, (n : Int) ∉ bucket (deleteById scenarioC 10).1 s)) :=
  ⟨reachable_run _, by decide,
    C3_tombstone_consistency scenarioC (reachable_run _) 10 (by decide)⟩

/-- C4: in a reachable state, `insertRecord(rec)` returns a position `p` such
that `findById(rec.id)` right afterwards finds slot `p`, which holds `rec` with
`deleted = false`, whether or not the id was present before; `idIndex` keeps
exactly one position for the id, namely `p`, and no key of `idIndex` has two
positions. -/
theorem C4_insert_then_find (e : Engine) (h : Reachable e) (r : Record) :
    ∃ p : Nat, (insertRecord e r).2 = (p : Int) ∧
      (findById (insertRecord e r).1 r.id).2.1 = some p ∧
      (insertRecord e r).1.heap[p]? = some { r with deleted := false } ∧
      (∀ q : Int, (r.id, q) ∈ (insertRecord e r).1.idIndex.root.toList ↔ q = (p : Int)) ∧
      (∀ (k q1 q2 : Int), (k, q1) ∈ (insertRecord e r).1.idIndex.root.toList →
        (k, q2) ∈ (insertRecord e r).1.idIndex.root.toList → q1 = q2) := by
  have hi0 := inv_of_reachable h
  have hi1 := inv_insertRecord hi0 r
  have hfind : (insertRecord e r).1.idIndex.root.find r.id = some (e.heap.length : Int) := by
    rw [insertRecord_idRoot, Node.find_insert]; simp
  refine ⟨e.heap.length, insertRecord_snd e r, ?_, ?_, ?_, ?_⟩
  · rw [findById_result hi1, hfind]; simp
  · rw [insertRecord_heap]; simp
  · intro q
    rw [← Node.find_eq_some_iff hi1.ordId, hfind]
    constructor
    · intro hq; exact (Option.some.inj hq).symm
    · intro hq; rw [hq]
  · intro k q1 q2 h1 h2
    rw [← Node.find_eq_some_iff hi1.ordId] at h1 h2
    rw [h1] at h2
    exact Option.some.inj h2

/-- C4 on the engine with two inserts of id 1: a third insert of id 1. -/
theorem C4_insert_then_find_witness :
    Reachable duplicateIdEngine ∧
      ∃ p : Nat, (insertRecord duplicateIdEngine ⟨1, [99], true⟩).2 = (p : Int) ∧
      (findById (insertRecord duplicateIdEngine ⟨1, [99], true⟩).1 1).2.1 = some p ∧
      (insertRecord duplicateIdEngine ⟨1, [99], true⟩).1.heap[p]? = some ⟨1, [99], false⟩ ∧
      (∀ q : Int, ((1 : Int), q) ∈
        (insertRecord duplicateIdEngine ⟨1, [99], true⟩).1.idIndex.root.toList ↔ q = (p : Int)) ∧
      (∀ (k q1 q2 : Int),
        (k, q1) ∈ (insertRecord duplicateIdEngine ⟨1, [99], true⟩).1.idIndex.root.toList →
        (k, q2) ∈ (insertRecord duplicateIdEngine ⟨1, [99], true⟩).1.idIndex.root.toList →
        q1 = q2) :=
  ⟨reachable_run _, C4_insert_then_find duplicateIdEngine (reachable_run _) ⟨1, [99], true⟩⟩

theorem deleteById_heap_length (e : Engine) (k : Int) :
    (deleteById e k).1.heap.length = e.heap.length := by
  rcases deleteById_cases e k with ⟨-, he⟩ | ⟨n, r, -, -, -, -, hheap, -, -⟩
  · rw [he]
  · rw [hheap, List.length_set]

theorem heap_length_le_step (e : Engine) (op : Op) :
    e.heap.length ≤ (step e op).heap.length := by
  cases op with
  | insert r => simp [step, insertRecord_heap]
  | delete k => simp [step, deleteById_heap_length]

theorem heap_length_le_foldl (ops : List Op) (e : Engine) :
    e.heap.length ≤ (ops.foldl step e).heap.length := by
  induction ops generalizing e with
  | nil => exact le_refl _
  | cons op ops ih => exact le_trans (heap_length_le_step e op) (ih (step e op))

/-- C5: for every engine state and record, `insertRecord(rec)` returns the heap
length before the call, the heap afterwards is one slot longer, the new slot
holds `rec`'s id and last name with `deleted = false` whatever the input flag
was, and the earlier slots are unchanged; the first insert on the empty engine
returns 0, an insert right after another returns the next position, and every
insert after any further calls returns a strictly greater position, so no
position is returned twice. -/
theorem C5_insertRecord_postcondition (e : Engine) (r : Record) :
    (insertRecord e r).2 = (e.heap.length : Int) ∧
      (insertRecord e r).1.heap.length = e.heap.length + 1 ∧
      (insertRecord e r).1.heap[e.heap.length]? = some ⟨r.id, r.last, false⟩ ∧
      (∀ q : Nat, q < e.heap.length → (insertRecord e r).1.heap[q]? = e.heap[q]?) ∧
      (insertRecord Engine.empty r).2 = 0 ∧
      (∀ r2 : Record, (insertRecord (insertRecord e r).1 r2).2 = (insertRecord e r).2 + 1) ∧
      (∀ (ops : List Op) (r2 : Record),
        (insertRecord e r).2 < (insertRecord (ops.foldl step (insertRecord e r).1) r2).2) := by
  refine ⟨insertRecord_snd e r, ?_, ?_, ?_, ?_, ?_, ?_⟩
  · rw [insertRecord_heap]; simp
  · rw [insertRecord_heap]; simp
  · intro q hq
    rw [insertRecord_heap, List.getElem?_append_left hq]
  · rw [insertRecord_snd]; rfl
  · intro r2
    rw [insertRecord_snd, insertRecord_snd, insertRecord_heap]; simp
  · intro ops r2
    rw [insertRecord_snd, insertRecord_snd]
    have h1 := heap_length_le_foldl ops (insertRecord e r).1
    rw [insertRecord_heap] at h1
    simp only [List.length_append, List.length_singleton] at h1
    exact_mod_cast h1

/-! ## Failed and repeated deletes -/

theorem heap_forall_foldl (P : Int → Str → Prop) (ops : List Op)
    (hops : ∀ r, Op.insert r ∈ ops → P r.id r.last) (e : Engine)
    (he : ∀ r ∈ e.heap, P r.id r.last) :
    ∀ r ∈ (ops.foldl step e).heap, P r.id r.last := by
  induction ops generalizing e with
  | nil => exact he
  | cons op ops ih =>
    apply ih (fun r hr => hops r (List.mem_cons_of_mem _ hr))
    cases op with
    | insert r0 =>
      intro r hr
      simp only [step, insertRecord_heap, List.mem_append, List.mem_singleton] at hr
      rcases hr with hr | rfl
      · exact he r hr
      · exact hops r0 (List.mem_cons_self _ _)
    | delete k =>
      intro r hr
      simp only [step] at hr
      rcases deleteById_cases e k with ⟨-, hx⟩ | ⟨n, r1, -, h1, -, -, hheap, -, -⟩
      · rw [hx] at hr; exact he r hr
      · rw [hheap] at hr
        rcases List.mem_or_eq_of_mem_set hr with hr | rfl
        · exact he r hr
        · exact he r1 (List.getElem?_mem h1)

theorem heap_forall_run (P : Int → Str → Prop) (ops : List Op)
    (hops : ∀ r, Op.insert r ∈ ops → P r.id r.last) :
    ∀ r ∈ (run ops).heap, P r.id r.last :=
  heap_forall_foldl P ops hops Engine.empty (by simp [Engine.empty])

/-- C6: in a reachable state, when `deleteById(k)` returns true an immediately
following `deleteById(k)` returns false; and when the state was reached by calls
among which no `insertRecord` carried the id `k`, `deleteById(k)` returns
false. -/
theorem C6_delete_twice_and_absent (e : Engine) (h : Reachable e) (k : Int) :
    ((deleteById e k).2 = true → (deleteById (deleteById e k).1 k).2 = false) ∧
      (∀ ops : List Op, e = run ops → (∀ r, Op.insert r ∈ ops → r.id ≠ k) →
        (deleteById e k).2 = false) := by
  have hi0 := inv_of_reachable h
  constructor
  · intro hd
    rcases deleteById_cases e k with ⟨hf, -⟩ | ⟨n, r, -, -, -, -, -, hid, -⟩
    · rw [hf] at hd; exact absurd hd (by simp)
    · have hnone : (deleteById e k).1.idIndex.root.find k = none := by
        rw [hid, Node.find_erase hi0.ordId]; simp
      cases hx : (deleteById (deleteById e k).1 k).2 with
      | false => rfl
      | true =>
        obtain ⟨m, r1, hm, -, -⟩ := (deleteById_true_iff _ k).1 hx
        rw [hnone] at hm
        exact absurd hm (by simp)
  · intro ops he hops
    subst he
    cases hx : (deleteById (run ops) k).2 with
    | false => rfl
    | true =>
      obtain ⟨m, r1, hm, -, -⟩ := (deleteById_true_iff _ k).1 hx
      obtain ⟨n, -, r2, h2, hid2, -⟩ := (hi0.idExact k m).1 hm
      exact absurd hid2 (heap_forall_run (fun i _ => i ≠ k) ops hops r2 (List.getElem?_mem h2))

/-- C6 on scenario C of the specification: id 10 is deleted twice, and id 11
was never inserted. -/
theorem C6_delete_twice_and_absent_witness :
    Reachable scenarioC ∧ (deleteById scenarioC 10).2 = true ∧
      (deleteById (deleteById scenarioC 10).1 10).2 = false ∧
      (deleteById scenarioC 11).2 = false :=
  ⟨reachable_run _, by decide,
    (C6_delete_twice_and_absent scenarioC (reachable_run _) 10).1 (by decide),
    (C6_delete_twice_and_absent scenarioC (reachable_run _) 11).2
      [Op.insert ⟨10, [88], false⟩] rfl
      (by intro r hr; rw [List.mem_singleton] at hr; rw [Op.insert.inj hr]; decide)⟩

/-- C7: for every engine state, when `deleteById(k)` returns false the heap, the
tree of `idIndex` and the whole of `lastIndex` are the same before and after the
call; only the comparison counter of `idIndex` may have moved. -/
theorem C7_failed_delete_noop (e : Engine) (k : Int) (h : (deleteById e k).2 = false) :
    (deleteById e k).1.heap = e.heap ∧
      (deleteById e k).1.idIndex.root = e.idIndex.root ∧
      (deleteById e k).1.lastIndex = e.lastIndex ∧
      (deleteById e k).1 =
        { e with idIndex :=
          { e.idIndex with comparisons := (deleteById e k).1.idIndex.comparisons } } := by
  rcases deleteById_cases e k with ⟨-, he⟩ | ⟨n, r, -, -, -, ht, -⟩
  · rw [he]
    exact ⟨rfl, rfl, rfl, rfl⟩
  · rw [ht] at h; exact absurd h (by simp)

/-- C7 on scenario C of the specification after id 10 has been deleted: the
second delete fails and changes nothing but the counter. -/
theorem C7_failed_delete_noop_witness :
    (deleteById (deleteById scenarioC 10).1 10).2 = false ∧
      ((deleteById (deleteById scenarioC 10).1 10).1.heap = (deleteById scenarioC 10).1.heap ∧
      (deleteById (deleteById scenarioC 10).1 10).1.idIndex.root =
        (deleteById scenarioC 10).1.idIndex.root ∧
      (deleteById (deleteById scenarioC 10).1 10).1.lastIndex =
        (deleteById scenarioC 10).1.lastIndex ∧
      (deleteById (deleteById scenarioC 10).1 10).1 =
        { (deleteById scenarioC 10).1 with idIndex :=
          { (deleteById scenarioC 10).1.idIndex with comparisons :=
            (deleteById (deleteById scenarioC 10).1 10).1.idIndex.comparisons } }) :=
  ⟨by decide, C7_failed_delete_noop (deleteById scenarioC 10).1 10 (by decide)⟩

/-! ## Order of the prefix result and case-insensitivity -/

/-- C8: in a reachable state the positions returned by `prefixByLast(p)` are
live heap slots and come sorted by lower-cased last name ascending and, for
equal lower-cased last names, by heap position ascending: the pairs
(lower-cased last name, position) are strictly increasing lexicographically. -/
theorem C8_prefixByLast_order (e : Engine) (h : Reachable e) (pfx : Str) :
    (∀ p ∈ (prefixByLast e pfx).2.1, Live e.heap p) ∧
      (prefixByLast e pfx).2.1.Pairwise
        (fun a b => keyAt e.heap a < keyAt e.heap b ∨
          (keyAt e.heap a = keyAt e.heap b ∧ a < b)) :=
  ⟨fun p hp => ((mem_prefixByLast (inv_of_reachable h) pfx p).1 hp).1,
    prefixByLast_sorted (inv_of_reachable h) pfx⟩

/-- C8 on scenario B of the specification with the prefix "sm". -/
theorem C8_prefixByLast_order_witness :
    Reachable scenarioB ∧
      ((∀ p ∈ (prefixByLast scenarioB [115, 109]).2.1, Live scenarioB.heap p) ∧
      (prefixByLast scenarioB [115, 109]).2.1.Pairwise
        (fun a b => keyAt scenarioB.heap a < keyAt scenarioB.heap b ∨
          (keyAt scenarioB.heap a = keyAt scenarioB.heap b ∧ a < b))) :=
  ⟨reachable_run _, C8_prefixByLast_order scenarioB (reachable_run _) [115, 109]⟩

theorem foldCase_eq_iff (a b : Record) :
    foldCase a = foldCase b ↔ a.id = b.id ∧ a.deleted = b.deleted ∧ toLower a.last = toLower b.last := by
  cases a; cases b
  simp only [foldCase, Record.mk.injEq]
  tauto

theorem sim_getElem? {h1 h2 : List Record} (hs : h1.map foldCase = h2.map foldCase) (n : Nat) :
    h1[n]?.map foldCase = h2[n]?.map foldCase := by
  rw [← List.getElem?_map, ← List.getElem?_map, hs]

theorem sim_liveSlot {h1 h2 : List Record} (hs : h1.map foldCase = h2.map foldCase) :
    liveSlot h1 = liveSlot h2 := by
  funext rid
  have hl : h1.length = h2.length := by
    have := congrArg List.length hs
    simpa using this
  have hg := sim_getElem? hs rid.toNat
  unfold liveSlot
  rw [hl]
  congr 1
  cases hx : h1[rid.toNat]? with
  | none =>
    rw [hx] at hg
    cases hy : h2[rid.toNat]? with
    | none => rfl
    | some b => rw [hy] at hg; simp at hg
  | some a =>
    rw [hx] at hg
    cases hy : h2[rid.toNat]? with
    | none => rw [hy] at hg; simp at hg
    | some b =>
      rw [hy] at hg
      simp only [Option.map_some', Option.some.injEq] at hg
      have := ((foldCase_eq_iff a b).1 hg).2.1
      simp [this]

theorem sim_insertRecord {e1 e2 : Engine} (hs : Sim e1 e2) {r1 r2 : Record}
    (hr : foldCase r1 = foldCase r2) : Sim (insertRecord e1 r1).1 (insertRecord e2 r2).1 := by
  obtain ⟨hid, hlast, hheap⟩ := hs
  obtain ⟨h1, h2, h3⟩ := (foldCase_eq_iff r1 r2).1 hr
  have hl : e1.heap.length = e2.heap.length := by
    have := congrArg List.length hheap
    simpa using this
  refine ⟨?_, ?_, ?_⟩
  · rw [insertRecord_idRoot, insertRecord_idRoot, hid, h1, hl]
  · rw [insertRecord_lastRoot, insertRecord_lastRoot, hlast, h3, hl]
  · rw [insertRecord_heap, insertRecord_heap, List.map_append, List.map_append, hheap]
    congr 1
    simp only [List.map_cons, List.map_nil, List.cons.injEq, and_true]
    exact (foldCase_eq_iff _ _).2 ⟨h1, rfl, h3⟩

theorem sim_deleteById_ok {e1 e2 : Engine} (hs : Sim e1 e2) (k : Int) {n : Nat} {r1 : Record}
    (hf : e1.idIndex.root.find k = some (n : Int)) (h1 : e1.heap[n]? = some r1)
    (hd : r1.deleted = false) :
    ∃ r2, e2.idIndex.root.find k = some (n : Int) ∧ e2.heap[n]? = some r2 ∧
      r2.deleted = false ∧ toLower r2.last = toLower r1.last := by
  obtain ⟨hid, -, hheap⟩ := hs
  have hg := sim_getElem? hheap n
  rw [h1] at hg
  cases hy : e2.heap[n]? with
  | none => rw [hy] at hg; simp at hg
  | some r2 =>
    rw [hy] at hg
    simp only [Option.map_some', Option.some.injEq] at hg
    obtain ⟨-, hdel, hlast⟩ := (foldCase_eq_iff r1 r2).1 hg
    exact ⟨r2, by rw [← hid]; exact hf, rfl, by rw [← hdel]; exact hd, hlast.symm⟩

theorem sim_symm {e1 e2 : Engine} (hs : Sim e1 e2) : Sim e2 e1 :=
  ⟨hs.1.symm, hs.2.1.symm, hs.2.2.symm⟩

theorem sim_deleteById {e1 e2 : Engine} (hs : Sim e1 e2) (k : Int) :
    Sim (deleteById e1 k).1 (deleteById e2 k).1 := by
  rcases deleteById_cases e1 k with ⟨hf1, he1⟩ | ⟨n, r1, hfind1, hr1, hdel1, -, hheap1, hid1, hlast1⟩
  · rcases deleteById_cases e2 k with ⟨-, he2⟩ | ⟨n, r2, hfind2, hr2, hdel2, -, -, -, -⟩
    · rw [he1, he2]; exact hs
    · obtain ⟨r1, g1, g2, g3, -⟩ := sim_deleteById_ok (sim_symm hs) k hfind2 hr2 hdel2
      have := (deleteById_true_iff e1 k).2 ⟨n, r1, g1, g2, g3⟩
      rw [hf1] at this
      exact absurd this (by simp)
  · obtain ⟨r2, g1, g2, g3, g4⟩ := sim_deleteById_ok hs k hfind1 hr1 hdel1
    rcases deleteById_cases e2 k with ⟨hf2, -⟩ | ⟨m, r3, hfind2, hr2, hdel2, -, hheap2, hid2, hlast2⟩
    · have := (deleteById_true_iff e2 k).2 ⟨n, r2, g1, g2, g3⟩
      rw [hf2] at this
      exact absurd this (by simp)
    · rw [g1] at hfind2
      have hmn : n = m := Int.ofNat.inj (Option.some.inj hfind2)
      subst hmn
      rw [g2] at hr2
      have hr : r2 = r3 := Option.some.inj hr2
      subst hr
      obtain ⟨hid, hlast, hheap⟩ := hs
      refine ⟨?_, ?_, ?_⟩
      · rw [hid1, hid2, hid]
      · rw [hlast1, hlast2, hlast, g4]
      · rw [hheap1, hheap2, List.map_set, List.map_set, hheap]
        congr 1
        have hg := sim_getElem? hheap n
        rw [hr1, g2] at hg
        simp only [Option.map_some', Option.some.injEq] at hg
        obtain ⟨i1, -, i3⟩ := (foldCase_eq_iff r1 r2).1 hg
        exact (foldCase_eq_iff _ _).2 ⟨i1, rfl, i3⟩

theorem sim_foldl {ops1 ops2 : List Op} (hops : List.Forall₂ CaseVariant ops1 ops2) :
    ∀ e1 e2 : Engine, Sim e1 e2 → Sim (ops1.foldl step e1) (ops2.foldl step e2) := by
  induction hops with
  | nil => intro e1 e2 hs; exact hs
  | @cons a b l1 l2 hab _ ih =>
    intro e1 e2 hs
    apply ih
    cases a with
    | insert r1 =>
      cases b with
      | insert r2 =>
        exact sim_insertRecord hs ((foldCase_eq_iff r1 r2).2 hab)
      | delete k2 => exact absurd hab (by simp [CaseVariant])
    | delete k1 =>
      cases b with
      | insert r2 => exact absurd hab (by simp [CaseVariant])
      | delete k2 =>
        have : k1 = k2 := hab
        subst this
        exact sim_deleteById hs k1

theorem sim_prefixByLast {e1 e2 : Engine} (hs : Sim e1 e2) (pfx : Str) :
    (prefixByLast e1 pfx).2.1 = (prefixByLast e2 pfx).2.1 := by
  obtain ⟨-, hlast, hheap⟩ := hs
  unfold prefixByLast BST.rangeApply BST.resetMetrics
  dsimp only
  rw [hlast, sim_liveSlot hheap]

/-- C9: (a) for every engine state and all strings `p`, `q` with the same
lower-casing, `prefixByLast(p)` and `prefixByLast(q)` give the same result
sequence, the same comparison count and the same engine state; (b) for two call
sequences from the empty engine that differ only in the letter case of the
inserted last names, `prefixByLast(p)` returns the same heap positions in the
same order; and both together, for a mixed-case query on mixed-case inserts. -/
theorem C9_case_insensitive (e : Engine) (p q : Str) (ops1 ops2 : List Op)
    (hpq : toLower p = toLower q) (hops : List.Forall₂ CaseVariant ops1 ops2) :
    prefixByLast e p = prefixByLast e q ∧
      (prefixByLast (run ops1) p).2.1 = (prefixByLast (run ops2) p).2.1 ∧
      (prefixByLast (run ops1) p).2.1 = (prefixByLast (run ops2) q).2.1 := by
  have ha : ∀ e0 : Engine, prefixByLast e0 p = prefixByLast e0 q := by
    intro e0
    unfold prefixByLast
    rw [hpq]
  have hsim : Sim (run ops1) (run ops2) :=
    sim_foldl hops Engine.empty Engine.empty ⟨rfl, rfl, rfl⟩
  refine ⟨ha e, sim_prefixByLast hsim p, ?_⟩
  rw [sim_prefixByLast hsim p, ha]

/-- C9 on scenario B of the specification: the queries "sM" and "Sm", and the
same inserts with the last names "SMITH", "smith", "smythe". -/
theorem C9_case_insensitive_witness :
    toLower [115, 77] = toLower [83, 109] ∧
      (prefixByLast scenarioB [115, 77] = prefixByLast scenarioB [83, 109] ∧
      (prefixByLast scenarioB [115, 77]).2.1 =
        (prefixByLast (run [Op.insert ⟨5, [83, 77, 73, 84, 72], false⟩,
          Op.insert ⟨6, [115, 109, 105, 116, 104], false⟩,
          Op.insert ⟨7, [115, 109, 121, 116, 104, 101], false⟩]) [115, 77]).2.1 ∧
      (prefixByLast scenarioB [115, 77]).2.1 =
        (prefixByLast (run [Op.insert ⟨5, [83, 77, 73, 84, 72], false⟩,
          Op.insert ⟨6, [115, 109, 105, 116, 104], false⟩,
          Op.insert ⟨7, [115, 109, 121, 116, 104, 101], false⟩]) [83, 109]).2.1) :=
  ⟨by decide,
    C9_case_insensitive scenarioB [115, 77] [83, 109]
      [Op.insert ⟨5, [83, 109, 105, 116, 104], false⟩,
        Op.insert ⟨6, [115, 109, 105, 116, 104], false⟩,
        Op.insert ⟨7, [83, 109, 121, 116, 104, 101], false⟩]
      [Op.insert ⟨5, [83, 77, 73, 84, 72], false⟩,
        Op.insert ⟨6, [115, 109, 105, 116, 104], false⟩,
        Op.insert ⟨7, [115, 109, 121, 116, 104, 101], false⟩]
      (by decide)
      (List.Forall₂.cons ⟨rfl, rfl, by decide⟩ (List.Forall₂.cons ⟨rfl, rfl, by decide⟩
        (List.Forall₂.cons ⟨rfl, rfl, by decide⟩ List.Forall₂.nil)))⟩

/-! ## The sentinel bound -/

theorem keyAt_bytes_of_run (ops : List Op)
    (hb : ∀ r, Op.insert r ∈ ops → ∀ c ∈ r.last, c < 127) (p : Nat) :
    ∀ c ∈ keyAt (run ops).heap p, c < 127 := by
  unfold keyAt
  cases hx : (run ops).heap[p]? with
  | none => simp
  | some r =>
    exact toLower_lt
      (heap_forall_run (fun _ s => ∀ c ∈ s, c < 127) ops hb r (List.getElem?_mem hx))

theorem key_of_mem_keys {e : Engine} (h : Inv e) {s : Str}
    (hs : s ∈ e.lastIndex.root.keys) : ∃ n : Nat, Live e.heap n ∧ keyAt e.heap n = s := by
  obtain ⟨v, hv⟩ := Node.mem_keys.1 hs
  have hf := (Node.find_eq_some_iff h.ordLast s v).2 hv
  have hb := h.lastExact s
  simp only [bucket, hf, Option.getD_some] at hb
  cases hl : (List.range e.heap.length).filter (fun n => liveKey e.heap n s) with
  | nil =>
    rw [hl] at hb
    exact absurd (by rw [hf, hb]; rfl) (h.noEmpty s)
  | cons n l =>
    have hn : n ∈ (List.range e.heap.length).filter (fun n => liveKey e.heap n s) := by
      rw [hl]; exact List.mem_cons_self _ _
    exact ⟨n, (liveKey_iff e.heap n s).1 (List.mem_filter.1 hn).2⟩

/-- C10: when every byte of every last name ever inserted is below 127, then in
the state reached and for every prefix `p`, every key of `lastIndex` that starts
with `toLower(p)` lies in the scanned closed range
`[toLower(p), toLower(p) + char(127)]`, and `prefixByLast(p)` returns exactly the
non-tombstoned heap records whose lower-cased last name starts with
`toLower(p)`, each once. -/
theorem C10_sentinel_guarantee (ops : List Op)
    (hb : ∀ r, Op.insert r ∈ ops → ∀ c ∈ r.last, c < 127) (pfx : Str) :
    (∀ s ∈ (run ops).lastIndex.root.keys, toLower pfx <+: s →
        toLower pfx ≤ s ∧ s ≤ toLower pfx ++ [127]) ∧
      (∀ p : Nat, p ∈ (prefixByLast (run ops) pfx).2.1 ↔
        (Live (run ops).heap p ∧ toLower pfx <+: keyAt (run ops).heap p)) ∧
      (prefixByLast (run ops) pfx).2.1.Nodup := by
  have hi0 := inv_of_reachable (reachable_run ops)
  have hbound : ∀ p : Nat, toLower pfx <+: keyAt (run ops).heap p →
      keyAt (run ops).heap p ≤ toLower pfx ++ [127] := by
    intro p hpre
    have hbytes := keyAt_bytes_of_run ops hb p
    obtain ⟨t, ht⟩ := hpre
    rw [← ht] at hbytes ⊢
    exact append_le_sentinel _ t (fun c hc => hbytes c (List.mem_append_right _ hc))
  refine ⟨?_, ?_, prefixByLast_nodup hi0 pfx⟩
  · intro s hs hpre
    obtain ⟨n, -, hn⟩ := key_of_mem_keys hi0 hs
    subst hn
    exact ⟨le_of_isPrefix hpre, hbound n hpre⟩
  · intro p
    rw [mem_prefixByLast hi0]
    constructor
    · rintro ⟨h1, h2, -⟩
      exact ⟨h1, h2⟩
    · rintro ⟨h1, h2⟩
      exact ⟨h1, h2, hbound p h2⟩

/-- C10 on scenario B of the specification with the prefix "smi". -/
theorem C10_sentinel_guarantee_witness :
    (∀ r, Op.insert r ∈ [Op.insert ⟨5, [83, 109, 105, 116, 104], false⟩,
        Op.insert ⟨6, [115, 109, 105, 116, 104], false⟩,
        Op.insert ⟨7, [83, 109, 121, 116, 104, 101], false⟩] → ∀ c ∈ r.last, c < 127) ∧
      ((∀ s ∈ scenarioB.lastIndex.root.keys, toLower [115, 109, 105] <+: s →
        toLower [115, 109, 105] ≤ s ∧ s ≤ toLower [115, 109, 105] ++ [127]) ∧
      (∀ p : Nat, p ∈ (prefixByLast scenarioB [115, 109, 105]).2.1 ↔
        (Live scenarioB.heap p ∧ toLower [115, 109, 105] <+: keyAt scenarioB.heap p)) ∧
      (prefixByLast scenarioB [115, 109, 105]).2.1.Nodup) :=
  have hb : ∀ r, Op.insert r ∈ [Op.insert ⟨5, [83, 109, 105, 116, 104], false⟩,
      Op.insert ⟨6, [115, 109, 105, 116, 104], false⟩,
      Op.insert ⟨7, [83, 109, 121, 116, 104, 101], false⟩] → ∀ c ∈ r.last, c < 127 := by
    intro r hr
    simp only [List.mem_cons, Op.insert.injEq, List.mem_singleton, List.not_mem_nil,
      or_false] at hr
    rcases hr with rfl | rfl | rfl <;> decide
  ⟨hb, C10_sentinel_guarantee _ hb [115, 109, 105]⟩

/-! ## Buckets of the secondary index -/

theorem bucket_of_mem_toList {e : Engine} (h : Inv e) {s : Str} {v : List Int}
    (hv : (s, v) ∈ e.lastIndex.root.toList) : bucket e s = v := by
  have hf := (Node.find_eq_some_iff h.ordLast s v).2 hv
  simp [bucket, hf]

theorem mem_keys_iff_bucket_ne_nil {e : Engine} (h : Inv e) (s : Str) :
    s ∈ e.lastIndex.root.keys ↔ bucket e s ≠ [] := by
  rw [← Node.find_isSome_iff h.ordLast]
  unfold bucket
  cases hf : e.lastIndex.root.find s with
  | none => simp
  | some v =>
    have := h.noEmpty s
    rw [hf] at this
    simpa using fun hv => this (by rw [hv])

theorem mem_bucket_iff {e : Engine} (h : Inv e) (s : Str) (n : Nat) :
    (n : Int) ∈ bucket e s ↔ Live e.heap n ∧ keyAt e.heap n = s := by
  rw [h.lastExact s]
  simp only [List.mem_map, List.mem_filter, List.mem_range]
  constructor
  · rintro ⟨m, ⟨-, hl⟩, hm⟩
    have : m = n := Int.ofNat.inj hm
    subst this
    exact (liveKey_iff _ _ _).1 hl
  · intro hl
    exact ⟨n, ⟨hl.1.lt_length, (liveKey_iff _ _ _).2 hl⟩, rfl⟩

theorem bucket_sorted {e : Engine} (h : Inv e) (s : Str) : (bucket e s).Pairwise (· < ·) := by
  rw [h.lastExact s, List.pairwise_map]
  have hr : (List.range e.heap.length).Pairwise (· < ·) := List.pairwise_lt_range _
  refine List.Pairwise.imp ?_ (List.Pairwise.sublist (List.filter_sublist _) hr)
  intro a b hab
  exact Int.ofNat_lt.2 hab

theorem bucket_nonneg {e : Engine} (h : Inv e) (s : Str) (x : Int) (hx : x ∈ bucket e s) :
    ∃ n : Nat, x = (n : Int) := by
  rw [h.lastExact s] at hx
  obtain ⟨n, -, rfl⟩ := List.mem_map.1 hx
  exact ⟨n, rfl⟩

/-- C11: in every reachable state every entry of `lastIndex` holds a non-empty
position list, a string is a key of `lastIndex` exactly when its bucket is
non-empty, and after a `deleteById` call a string whose bucket has become empty
is no longer a key. -/
theorem C11_no_empty_buckets (e : Engine) (h : Reachable e) :
    (∀ (s : Str) (v : List Int), (s, v) ∈ e.lastIndex.root.toList → v ≠ []) ∧
      (∀ s : Str, s ∈ e.lastIndex.root.keys ↔ bucket e s ≠ []) ∧
      (∀ (k : Int) (s : Str), bucket (deleteById e k).1 s = [] →
        s ∉ (deleteById e k).1.lastIndex.root.keys) := by
  have hi := inv_of_reachable h
  refine ⟨?_, mem_keys_iff_bucket_ne_nil hi, ?_⟩
  · intro s v hv hnil
    have hf := (Node.find_eq_some_iff hi.ordLast s v).2 hv
    exact hi.noEmpty s (by rw [hf, hnil])
  · intro k s hb hs
    exact (mem_keys_iff_bucket_ne_nil (inv_deleteById hi k) s).1 hs hb

/-- C11 on scenario C of the specification, where deleting id 10 empties the
bucket of "x". -/
theorem C11_no_empty_buckets_witness :
    Reachable scenarioC ∧
      ((∀ (s : Str) (v : List Int), (s, v) ∈ scenarioC.lastIndex.root.toList → v ≠ []) ∧
      (∀ s : Str, s ∈ scenarioC.lastIndex.root.keys ↔ bucket scenarioC s ≠ []) ∧
      (∀ (k : Int) (s : Str), bucket (deleteById scenarioC k).1 s = [] →
        s ∉ (deleteById scenarioC k).1.lastIndex.root.keys)) :=
  ⟨reachable_run _, C11_no_empty_buckets scenarioC (reachable_run _)⟩

/-- C12 as stated fails: after `deleteById(10)` on scenario C the heap still
holds the tombstoned record with lower-cased last name "x" in slot 0, but the
bucket of "x" no longer lists slot 0. -/
theorem C12_bucket_drops_tombstoned_slot :
    ¬ (bucket scenarioCDeleted [120] =
        ((List.range scenarioCDeleted.heap.length).filter
          (fun n => decide (keyAt scenarioCDeleted.heap n = [120]))).map Int.ofNat) := by
  decide

/-- C12, amended: in every reachable state and for every string `s`, the bucket
of `s` in `lastIndex` lists the heap positions of the live (non-tombstoned) heap
records whose lower-cased last name is `s`, and only those, in insertion order
(ascending position); the position of a record is taken out of its bucket by
the `deleteById` call that tombstones it. -/
theorem C12_bucket_lists_live_slots (e : Engine) (h : Reachable e) (s : Str) :
    (∀ n : Nat, (n : Int) ∈ bucket e s ↔ (Live e.heap n ∧ keyAt e.heap n = s)) ∧
      (∀ x ∈ bucket e s, ∃ n : Nat, x = (n : Int)) ∧
      (bucket e s).Pairwise (· < ·) ∧
      (∀ (k : Int) (n : Nat), Live e.heap n → ¬ Live (deleteById e k).1.heap n →
        (n : Int) ∉ bucket (deleteById e k).1 s) := by
  have hi := inv_of_reachable h
  refine ⟨mem_bucket_iff hi s, bucket_nonneg hi s, bucket_sorted hi s, ?_⟩
  intro k n _ hdead hmem
  exact hdead ((mem_bucket_iff (inv_deleteById hi k) s n).1 hmem).1

/-- C12, amended, on scenario B of the specification and the key "smith". -/
theorem C12_bucket_lists_live_slots_witness :
    Reachable scenarioB ∧
      ((∀ n : Nat, (n : Int) ∈ bucket scenarioB [115, 109, 105, 116, 104] ↔
        (Live scenarioB.heap n ∧ keyAt scenarioB.heap n = [115, 109, 105, 116, 104])) ∧
      (∀ x ∈ bucket scenarioB [115, 109, 105, 116, 104], ∃ n : Nat, x = (n : Int)) ∧
      (bucket scenarioB [115, 109, 105, 116, 104]).Pairwise (· < ·) ∧
      (∀ (k : Int) (n : Nat), Live scenarioB.heap n →
        ¬ Live (deleteById scenarioB k).1.heap n →
        (n : Int) ∉ bucket (deleteById scenarioB k).1 [115, 109, 105, 116, 104])) :=
  ⟨reachable_run _,
    C12_bucket_lists_live_slots scenarioB (reachable_run _) [115, 109, 105, 116, 104]⟩

/-! ## The heap is append-only -/

theorem heapExtends_refl (h : List Record) : HeapExtends h h :=
  ⟨le_refl _, fun _ r hr => ⟨r, hr, rfl, rfl, fun hd => hd⟩⟩

theorem heapExtends_trans {h1 h2 h3 : List Record} (a : HeapExtends h1 h2)
    (b : HeapExtends h2 h3) : HeapExtends h1 h3 := by
  refine ⟨le_trans a.1 b.1, ?_⟩
  intro n r hr
  obtain ⟨r2, h2r, i2, l2, d2⟩ := a.2 n r hr
  obtain ⟨r3, h3r, i3, l3, d3⟩ := b.2 n r2 h2r
  exact ⟨r3, h3r, by rw [i3, i2], by rw [l3, l2], fun hd => d3 (d2 hd)⟩

theorem heapExtends_append (h : List Record) (r : Record) : HeapExtends h (h ++ [r]) := by
  refine ⟨by simp, ?_⟩
  intro n r0 hr
  have hn : n < h.length := by
    by_contra hge
    rw [List.getElem?_eq_none (by omega)] at hr
    exact absurd hr (by simp)
  exact ⟨r0, by rw [List.getElem?_append_left hn]; exact hr, rfl, rfl, fun hd => hd⟩

theorem heapExtends_tombstone (h : List Record) (n : Nat) (r : Record) (hr : h[n]? = some r) :
    HeapExtends h (h.set n { r with deleted := true }) := by
  refine ⟨by simp, ?_⟩
  intro m r0 hm
  rw [getElem?_tombstone h n r hr]
  by_cases hmn : m = n
  · subst hmn
    rw [hr] at hm
    have hrr : r = r0 := Option.some.inj hm
    subst hrr
    exact ⟨{ r with deleted := true }, by rw [if_pos rfl], rfl, rfl, fun _ => rfl⟩
  · exact ⟨r0, by rw [if_neg hmn]; exact hm, rfl, rfl, fun hd => hd⟩

theorem heapExtends_insertRecord (e : Engine) (r : Record) :
    HeapExtends e.heap (insertRecord e r).1.heap := by
  rw [insertRecord_heap]
  exact heapExtends_append _ _

theorem heapExtends_deleteById (e : Engine) (k : Int) :
    HeapExtends e.heap (deleteById e k).1.heap := by
  rcases deleteById_cases e k with ⟨-, he⟩ | ⟨n, r, -, hr, -, -, hheap, -, -⟩
  · rw [he]; exact heapExtends_refl _
  · rw [hheap]; exact heapExtends_tombstone _ n r hr

theorem heapExtends_foldl (ops : List Op) (e : Engine) :
    HeapExtends e.heap (ops.foldl step e).heap := by
  induction ops generalizing e with
  | nil => exact heapExtends_refl _
  | cons op ops ih =>
    refine heapExtends_trans ?_ (ih (step e op))
    cases op with
    | insert r => exact heapExtends_insertRecord e r
    | delete k => exact heapExtends_deleteById e k

/-- C13: for every engine state, `insertRecord` appends exactly one slot,
`deleteById` either leaves the heap as it is (always when it returns false) or
switches the flag of one slot from false to true, and `findById`, `rangeById`
and `prefixByLast` leave the heap as it is; hence after each of the five
operations, and after any sequence of calls, the heap is at least as long,
every existing slot has the same id and last name, and a tombstoned slot is
still tombstoned. -/
theorem C13_heap_append_only (e : Engine) (r : Record) (k lo hi : Int) (pfx : Str) :
    (insertRecord e r).1.heap = e.heap ++ [{ r with deleted := false }] ∧
      ((deleteById e k).1.heap = e.heap ∨
        ∃ (n : Nat) (r0 : Record), e.heap[n]? = some r0 ∧ r0.deleted = false ∧
          (deleteById e k).2 = true ∧
          (deleteById e k).1.heap = e.heap.set n { r0 with deleted := true }) ∧
      ((deleteById e k).2 = false → (deleteById e k).1.heap = e.heap) ∧
      (findById e k).1.heap = e.heap ∧
      (rangeById e lo hi).1.heap = e.heap ∧
      (prefixByLast e pfx).1.heap = e.heap ∧
      HeapExtends e.heap (insertRecord e r).1.heap ∧
      HeapExtends e.heap (deleteById e k).1.heap ∧
      (∀ ops : List Op, HeapExtends e.heap (ops.foldl step e).heap) := by
  refine ⟨insertRecord_heap e r, ?_, ?_, ?_, rfl, rfl, heapExtends_insertRecord e r,
    heapExtends_deleteById e k, fun ops => heapExtends_foldl ops e⟩
  · rcases deleteById_cases e k with ⟨-, he⟩ | ⟨n, r0, -, hr, hd, ht, hheap, -, -⟩
    · left; rw [he]
    · right; exact ⟨n, r0, hr, hd, ht, hheap⟩
  · intro hf
    rcases deleteById_cases e k with ⟨-, he⟩ | ⟨n, r0, -, -, -, ht, -, -, -⟩
    · rw [he]
    · rw [ht] at hf; exact absurd hf (by simp)
  · unfold findById
    dsimp only
    split
    · rfl
    · split
      · rfl
      · split
        · rfl
        · split <;> rfl

/-! ## Comparison counts of the point lookup -/

theorem findById_snd (e : Engine) (k : Int) :
    (findById e k).2 =
      ((match e.idIndex.root.find k with
        | none => none
        | some rid =>
          if rid < 0 ∨ rid ≥ (e.heap.length : Int) then none
          else
            match e.heap[rid.toNat]? with
            | none => none
            | some r => if r.deleted then none else some rid.toNat),
        e.idIndex.root.findCost k) := by
  unfold findById BST.find BST.resetMetrics
  dsimp only
  split
  · simp
  · split
    · simp
    · split
      · simp
      · split <;> simp

theorem findById_fst (e : Engine) (k : Int) :
    (findById e k).1 =
      { e with idIndex := { e.idIndex with comparisons := e.idIndex.root.findCost k } } := by
  unfold findById BST.find BST.resetMetrics
  dsimp only
  split
  · simp
  · split
    · simp
    · split
      · simp
      · split <;> simp

/-- C14: for every engine state (reachable or not) and every id `k`, a second
`findById(k)` right after a first one reports the same outcome, the same slot
and the same comparison count; the count is the number of comparisons of the
walk for `k` on a miss as on a hit, it does not depend on the value the counter
of `idIndex` held before the call, and the first call changes nothing in the
engine but that counter. -/
theorem C14_findById_repeatable (e : Engine) (k : Int) (c : Nat) :
    (findById (findById e k).1 k).2 = (findById e k).2 ∧
      (findById e k).2.2 = e.idIndex.root.findCost k ∧
      (findById { e with idIndex := { e.idIndex with comparisons := c } } k).2 =
        (findById e k).2 ∧
      (findById e k).1 =
        { e with idIndex := { e.idIndex with comparisons := (findById e k).2.2 } } := by
  refine ⟨?_, ?_, ?_, ?_⟩
  · rw [findById_snd (findById e k).1, findById_snd e, findById_fst]
  · rw [findById_snd]
  · rw [findById_snd, findById_snd e]
  · rw [findById_fst, findById_snd]

/-! ## Soundness of the unique index -/

/-- C15: in every reachable state every entry `k ↦ p` of `idIndex` has
`0 ≤ p < heap.size()` and points at a slot holding a record with id `k` and
`deleted = false`, so the bounds and tombstone branches of `deleteById` and
`findById` are not taken; `deleteById(k)` returns true exactly when `k` is a
key of `idIndex`, and `findById(k)` finds a record exactly when `k` is a key of
`idIndex`. -/
theorem C15_idIndex_sound (e : Engine) (h : Reachable e) :
    (∀ (k p : Int), (k, p) ∈ e.idIndex.root.toList →
        0 ≤ p ∧ p < (e.heap.length : Int) ∧
          ∃ r, e.heap[p.toNat]? = some r ∧ r.id = k ∧ r.deleted = false) ∧
      (∀ k : Int, (deleteById e k).2 = true ↔ k ∈ e.idIndex.root.keys) ∧
      (∀ k : Int, (findById e k).2.1.isSome = true ↔ k ∈ e.idIndex.root.keys) := by
  have hi := inv_of_reachable h
  have hentry : ∀ (k p : Int), e.idIndex.root.find k = some p →
      0 ≤ p ∧ p < (e.heap.length : Int) ∧
        ∃ r, e.heap[p.toNat]? = some r ∧ r.id = k ∧ r.deleted = false := by
    intro k p hf
    obtain ⟨n, rfl, r, hr, hid, hd, -⟩ := (hi.idExact k p).1 hf
    have hn : n < e.heap.length := Live.lt_length ⟨r, hr, hd⟩
    exact ⟨Int.ofNat_nonneg n, by exact_mod_cast hn, r, by simpa using hr, hid, hd⟩
  refine ⟨?_, ?_, ?_⟩
  · intro k p hp
    exact hentry k p ((Node.find_eq_some_iff hi.ordId k p).2 hp)
  · intro k
    rw [deleteById_true_iff, ← Node.find_isSome_iff hi.ordId, Option.isSome_iff_exists]
    constructor
    · rintro ⟨n, r, hf, -, -⟩
      exact ⟨_, hf⟩
    · rintro ⟨p, hf⟩
      obtain ⟨n, rfl, r, hr, -, hd, -⟩ := (hi.idExact k p).1 hf
      exact ⟨n, r, hf, hr, hd⟩
  · intro k
    rw [findById_result hi, ← Node.find_isSome_iff hi.ordId]
    cases e.idIndex.root.find k <;> simp

/-- C15 on scenario A of the specification. -/
theorem C15_idIndex_sound_witness :
    Reachable scenarioA ∧
      ((∀ (k p : Int), (k, p) ∈ scenarioA.idIndex.root.toList →
        0 ≤ p ∧ p < (scenarioA.heap.length : Int) ∧
          ∃ r, scenarioA.heap[p.toNat]? = some r ∧ r.id = k ∧ r.deleted = false) ∧
      (∀ k : Int, (deleteById scenarioA k).2 = true ↔ k ∈ scenarioA.idIndex.root.keys) ∧
      (∀ k : Int, (findById scenarioA k).2.1.isSome = true ↔
        k ∈ scenarioA.idIndex.root.keys)) :=
  ⟨reachable_run _, C15_idIndex_sound scenarioA (reachable_run _)⟩

/-! ## Range scan and point lookup -/

theorem eq_of_pairwise_of_mem_iff {α : Type} (r : α → α → Prop)
    (hasymm : ∀ a b, r a b → ¬ r b a) {l1 l2 : List α}
    (s1 : l1.Pairwise r) (s2 : l2.Pairwise r) (hmem : ∀ a, a ∈ l1 ↔ a ∈ l2) : l1 = l2 := by
  have hne : ∀ a b, r a b → a ≠ b := by
    intro a b hab hEq
    subst hEq
    exact hasymm a a hab hab
  have d1 : l1.Nodup := s1.imp (fun hab => hne _ _ hab)
  have d2 : l2.Nodup := s2.imp (fun hab => hne _ _ hab)
  have hp : l1.Perm l2 := (List.perm_ext_iff_of_nodup d1 d2).2 hmem
  haveI : IsAntisymm α r := ⟨fun a b h1 h2 => absurd h2 (hasymm a b h1)⟩
  exact List.eq_of_perm_of_sorted hp s1 s2

theorem mem_idsBetween (lo hi j : Int) : j ∈ idsBetween lo hi ↔ lo ≤ j ∧ j ≤ hi := by
  unfold idsBetween
  simp only [List.mem_map, List.mem_range]
  constructor
  · rintro ⟨i, hi1, rfl⟩
    have := Int.lt_toNat.1 hi1
    constructor <;> omega
  · rintro ⟨h1, h2⟩
    have hc : (((j - lo).toNat : Nat) : Int) = j - lo := Int.toNat_of_nonneg (by omega)
    refine ⟨(j - lo).toNat, Int.lt_toNat.2 (by omega), by omega⟩

theorem idsBetween_sorted (lo hi : Int) : (idsBetween lo hi).Pairwise (· < ·) := by
  unfold idsBetween
  exact List.Pairwise.map (fun i : Nat => lo + (i : Int))
    (fun a b hab => by show lo + (a : Int) < lo + (b : Int); omega)
    (List.pairwise_lt_range _)

theorem idsBetween_self (k : Int) : idsBetween k k = [k] := by
  unfold idsBetween
  have : k + 1 - k = 1 := by omega
  rw [this]
  simp [List.range_succ]

theorem findById_eq_some_iff {e : Engine} (h : Inv e) (k : Int) (p : Nat) :
    (findById e k).2.1 = some p ↔ Current e.heap p k := by
  rw [findById_result h]
  constructor
  · intro hf
    cases hx : e.idIndex.root.find k with
    | none => rw [hx] at hf; simp at hf
    | some rid =>
      rw [hx] at hf
      obtain ⟨n, rfl, hc⟩ := (h.idExact k rid).1 hx
      simp only [Option.map_some', Int.toNat_ofNat, Option.some.injEq] at hf
      subst hf
      exact hc
  · intro hc
    rw [(h.idExact k p).2 ⟨p, rfl, hc⟩]
    simp

/-- C16: in every reachable state and for all `lo ≤ hi`, the sequence returned by
`rangeById(lo, hi)` is the sequence of the slots that `findById(k)` finds for
`k = lo, lo + 1, …, hi` in this order; the ids of the returned records are
strictly increasing, and `rangeById(k, k)` is the one slot `findById(k)` finds,
or empty when it finds none. -/
theorem C16_range_agrees_with_find (e : Engine) (h : Reachable e) (lo hi : Int)
    (hle : lo ≤ hi) (k : Int) :
    (rangeById e lo hi).2.1 = (idsBetween lo hi).filterMap (fun j => (findById e j).2.1) ∧
      ((rangeById e lo hi).2.1.map (idAt e.heap)).Pairwise (· < ·) ∧
      (rangeById e k k).2.1 = (findById e k).2.1.toList := by
  have hi0 := inv_of_reachable h
  have key : ∀ a b : Int, (rangeById e a b).2.1 =
      (idsBetween a b).filterMap (fun j => (findById e j).2.1) := by
    intro a b
    apply eq_of_pairwise_of_mem_iff (fun x y => idAt e.heap x < idAt e.heap y)
      (fun x y hxy => not_lt_of_lt hxy)
    · exact List.pairwise_map.1 (rangeById_sorted hi0 a b)
    · rw [List.pairwise_filterMap]
      refine List.Pairwise.imp ?_ (idsBetween_sorted a b)
      intro j1 j2 hj x hx y hy
      have cx := (findById_eq_some_iff hi0 j1 x).1 hx
      have cy := (findById_eq_some_iff hi0 j2 y).1 hy
      rw [cx.idAt, cy.idAt]
      exact hj
    · intro p
      rw [mem_rangeById hi0, List.mem_filterMap]
      constructor
      · rintro ⟨j, h1, h2, hc⟩
        exact ⟨j, (mem_idsBetween a b j).2 ⟨h1, h2⟩, (findById_eq_some_iff hi0 j p).2 hc⟩
      · rintro ⟨j, hj, hf⟩
        obtain ⟨h1, h2⟩ := (mem_idsBetween a b j).1 hj
        exact ⟨j, h1, h2, (findById_eq_some_iff hi0 j p).1 hf⟩
  refine ⟨key lo hi, rangeById_sorted hi0 lo hi, ?_⟩
  rw [key k k, idsBetween_self]
  simp only [List.filterMap_cons, List.filterMap_nil]
  generalize (findById e k).2.1 = o
  cases o <;> rfl

/-- C16 on scenario A of the specification: `rangeById(1, 2)` and
`rangeById(3, 3)`. -/
theorem C16_range_agrees_with_find_witness :
    Reachable scenarioA ∧ (1 : Int) ≤ 2 ∧
      ((rangeById scenarioA 1 2).2.1 =
        (idsBetween 1 2).filterMap (fun j => (findById scenarioA j).2.1) ∧
      ((rangeById scenarioA 1 2).2.1.map (idAt scenarioA.heap)).Pairwise (· < ·) ∧
      (rangeById scenarioA 3 3).2.1 = (findById scenarioA 3).2.1.toList) :=
  ⟨reachable_run _, by decide,
    C16_range_agrees_with_find scenarioA (reachable_run _) 1 2 (by decide) 3⟩

/-! ## Exact content of the secondary index -/

/-- C17: in every reachable state and for every string `s`, the bucket of `s`
in `lastIndex` (empty when `s` is not a key) is exactly the increasing list of
the positions `p < heap.size()` whose slot is not tombstoned and has
lower-cased last name `s`; the bucket is strictly increasing and without
repetition, a position that occurs in the bucket of `s` occurs in no bucket of
another string, and every position stored in the bucket passes the in-bounds
and tombstone guard of `prefixByLast`. -/
theorem C17_lastIndex_exact (e : Engine) (h : Reachable e) (s : Str) :
    bucket e s =
        ((List.range e.heap.length).filter (fun p => liveKey e.heap p s)).map Int.ofNat ∧
      (bucket e s).Pairwise (· < ·) ∧
      (bucket e s).Nodup ∧
      (∀ (s2 : Str) (x : Int), x ∈ bucket e s → x ∈ bucket e s2 → s2 = s) ∧
      (∀ x ∈ bucket e s, liveSlot e.heap x = true) := by
  have hi0 := inv_of_reachable h
  refine ⟨hi0.lastExact s, bucket_sorted hi0 s, ?_, ?_, ?_⟩
  · exact (bucket_sorted hi0 s).imp (fun hab => ne_of_lt hab)
  · intro s2 x hx hx2
    obtain ⟨n, rfl⟩ := bucket_nonneg hi0 s x hx
    have k1 := ((mem_bucket_iff hi0 s n).1 hx).2
    have k2 := ((mem_bucket_iff hi0 s2 n).1 hx2).2
    rw [← k1, ← k2]
  · intro x hx
    obtain ⟨n, rfl⟩ := bucket_nonneg hi0 s x hx
    exact (liveSlot_ofNat e.heap n).2 ((mem_bucket_iff hi0 s n).1 hx).1

/-- C17 on scenario A of the specification and the key "lee". -/
theorem C17_lastIndex_exact_witness :
    Reachable scenarioA ∧
      (bucket scenarioA [108, 101, 101] =
        ((List.range scenarioA.heap.length).filter
          (fun p => liveKey scenarioA.heap p [108, 101, 101])).map Int.ofNat ∧
      (bucket scenarioA [108, 101, 101]).Pairwise (· < ·) ∧
      (bucket scenarioA [108, 101, 101]).Nodup ∧
      (∀ (s2 : Str) (x : Int), x ∈ bucket scenarioA [108, 101, 101] →
        x ∈ bucket scenarioA s2 → s2 = [108, 101, 101]) ∧
      (∀ x ∈ bucket scenarioA [108, 101, 101], liveSlot scenarioA.heap x = true)) :=
  ⟨reachable_run _, C17_lastIndex_exact scenarioA (reachable_run _) [108, 101, 101]⟩

/-! ## The record orphaned by a duplicate-key insert -/

theorem reachable_foldl (ops : List Op) (e : Engine) (h : Reachable e) :
    Reachable (ops.foldl step e) := by
  induction ops generalizing e with
  | nil => exact h
  | cons op ops ih =>
    apply ih
    cases op with
    | insert r => exact Reachable.insert e r h
    | delete k => exact Reachable.delete e k h

theorem idAt_of_heapExtends {h1 h2 : List Record} (hx : HeapExtends h1 h2) {n : Nat}
    (hn : n < h1.length) : idAt h2 n = idAt h1 n := by
  obtain ⟨r, hr⟩ : ∃ r, h1[n]? = some r := ⟨h1[n], List.getElem?_eq_getElem hn⟩
  obtain ⟨r2, h2r, hid, -, -⟩ := hx.2 n r hr
  simp [idAt, hr, h2r, hid]

theorem keyAt_of_heapExtends {h1 h2 : List Record} (hx : HeapExtends h1 h2) {n : Nat}
    (hn : n < h1.length) : keyAt h2 n = keyAt h1 n := by
  obtain ⟨r, hr⟩ : ∃ r, h1[n]? = some r := ⟨h1[n], List.getElem?_eq_getElem hn⟩
  obtain ⟨r2, h2r, -, hl, -⟩ := hx.2 n r hr
  simp [keyAt, hr, h2r, hl]

theorem superseded_of_heapExtends {h1 h2 : List Record} (hx : HeapExtends h1 h2) {n : Nat}
    (hs : Superseded h1 n) : Superseded h2 n := by
  obtain ⟨m, r, hnm, hr, hid⟩ := hs
  have hm : m < h1.length := by
    by_contra hge
    rw [List.getElem?_eq_none (by omega)] at hr
    exact absurd hr (by simp)
  obtain ⟨r2, h2r, hid2, -, -⟩ := hx.2 m r hr
  exact ⟨m, r2, hnm, h2r, by rw [hid2, hid, idAt_of_heapExtends hx (by omega)]⟩

theorem not_current_of_superseded {heap : List Record} {n : Nat} (hs : Superseded heap n)
    (k : Int) : ¬ Current heap n k := by
  intro hc
  obtain ⟨m, r, hnm, hr, hid⟩ := hs
  have hk := hc.idAt
  obtain ⟨-, -, -, -, hlater⟩ := hc
  exact hlater m r hnm hr (by rw [hid, hk])

theorem live_step_of_superseded {e : Engine} (h : Inv e) {p : Nat} (hl : Live e.heap p)
    (hs : Superseded e.heap p) (op : Op) : Live (step e op).heap p := by
  obtain ⟨r, hr, hd⟩ := hl
  cases op with
  | insert r0 =>
    refine ⟨r, ?_, hd⟩
    simp only [step, insertRecord_heap]
    rw [List.getElem?_append_left (Live.lt_length ⟨r, hr, hd⟩)]
    exact hr
  | delete k =>
    simp only [step]
    rcases deleteById_cases e k with ⟨-, he⟩ | ⟨n, r1, hfind, hr1, -, -, hheap, -, -⟩
    · rw [he]; exact ⟨r, hr, hd⟩
    · have hnp : p ≠ n := by
        rintro rfl
        obtain ⟨m, hm, hc⟩ := (h.idExact k p).1 hfind
        have : p = m := Int.ofNat.inj hm
        subst this
        exact not_current_of_superseded hs k hc
      refine ⟨r, ?_, hd⟩
      rw [hheap, getElem?_tombstone e.heap n r1 hr1, if_neg hnp]
      exact hr

theorem orphan_foldl (ops : List Op) (e : Engine) (h : Reachable e) {p : Nat}
    (hl : Live e.heap p) (hs : Superseded e.heap p) :
    Live (ops.foldl step e).heap p ∧ Superseded (ops.foldl step e).heap p := by
  induction ops generalizing e with
  | nil => exact ⟨hl, hs⟩
  | cons op ops ih =>
    have hx : HeapExtends e.heap (step e op).heap := heapExtends_foldl [op] e
    have hr : Reachable (step e op) := reachable_foldl [op] e h
    exact ih (step e op) hr (live_step_of_superseded (inv_of_reachable h) hl hs op)
      (superseded_of_heapExtends hx hs)

/-- C18: let `insertRecord(r1)` on a reachable state return `p1`, and let a
later `insertRecord(r2)` with `r2.id = r1.id` happen while slot `p1` is not
tombstoned. Then after every further sequence of `insertRecord` and
`deleteById` calls slot `p1` still holds `r1`'s id and last name with
`deleted = false`, no `findById` and no `rangeById` returns slot `p1`, and, when
every byte of `r1.last` is below 127, `prefixByLast(q)` returns slot `p1` for
every `q` such that `toLower(r1.last)` starts with `toLower(q)`. -/
theorem C18_orphaned_record (e0 : Engine) (h0 : Reachable e0) (r1 r2 : Record)
    (ops1 ops2 : List Op) (hid : r2.id = r1.id)
    (hlive : Live (ops1.foldl step (insertRecord e0 r1).1).heap e0.heap.length) :
    (insertRecord e0 r1).2 = (e0.heap.length : Int) ∧
      (∃ r, (afterDuplicate e0 r1 ops1 r2 ops2).heap[e0.heap.length]? = some r ∧
        r.deleted = false ∧ r.id = r1.id ∧ r.last = r1.last) ∧
      (∀ k : Int, (findById (afterDuplicate e0 r1 ops1 r2 ops2) k).2.1 ≠
        some e0.heap.length) ∧
      (∀ lo hi : Int, e0.heap.length ∉ (rangeById (afterDuplicate e0 r1 ops1 r2 ops2) lo hi).2.1) ∧
      ((∀ c ∈ r1.last, c < 127) → ∀ q : Str, toLower q <+: toLower r1.last →
        e0.heap.length ∈ (prefixByLast (afterDuplicate e0 r1 ops1 r2 ops2) q).2.1) := by
  have hrA : Reachable (insertRecord e0 r1).1 := Reachable.insert e0 r1 h0
  have hrB : Reachable (ops1.foldl step (insertRecord e0 r1).1) := reachable_foldl ops1 _ hrA
  have hrC : Reachable (insertRecord (ops1.foldl step (insertRecord e0 r1).1) r2).1 :=
    Reachable.insert _ r2 hrB
  have hrD : Reachable (afterDuplicate e0 r1 ops1 r2 ops2) := reachable_foldl ops2 _ hrC
  have hiD := inv_of_reachable hrD
  -- the slot right after the first insert
  have hslotA : (insertRecord e0 r1).1.heap[e0.heap.length]? =
      some { r1 with deleted := false } := by
    rw [insertRecord_heap]; simp
  have hlenA : e0.heap.length < (insertRecord e0 r1).1.heap.length := by
    rw [insertRecord_heap]; simp
  have hxAB : HeapExtends (insertRecord e0 r1).1.heap
      (ops1.foldl step (insertRecord e0 r1).1).heap := heapExtends_foldl ops1 _
  have hxBC : HeapExtends (ops1.foldl step (insertRecord e0 r1).1).heap
      (insertRecord (ops1.foldl step (insertRecord e0 r1).1) r2).1.heap :=
    heapExtends_insertRecord _ r2
  have hxCD : HeapExtends (insertRecord (ops1.foldl step (insertRecord e0 r1).1) r2).1.heap
      (afterDuplicate e0 r1 ops1 r2 ops2).heap := heapExtends_foldl ops2 _
  have hxAD := heapExtends_trans hxAB (heapExtends_trans hxBC hxCD)
  have hlenB := Live.lt_length hlive
  -- slot p1 is live and superseded right after the second insert
  have hliveC : Live (insertRecord (ops1.foldl step (insertRecord e0 r1).1) r2).1.heap
      e0.heap.length := by
    obtain ⟨r, hr, hd⟩ := hlive
    refine ⟨r, ?_, hd⟩
    rw [insertRecord_heap, List.getElem?_append_left hlenB]
    exact hr
  have hidC : idAt (insertRecord (ops1.foldl step (insertRecord e0 r1).1) r2).1.heap
      e0.heap.length = r1.id := by
    rw [idAt_of_heapExtends (heapExtends_trans hxAB hxBC) hlenA]
    simp [idAt, hslotA]
  have hsupC : Superseded (insertRecord (ops1.foldl step (insertRecord e0 r1).1) r2).1.heap
      e0.heap.length := by
    refine ⟨(ops1.foldl step (insertRecord e0 r1).1).heap.length,
      { r2 with deleted := false }, hlenB, ?_, ?_⟩
    · rw [insertRecord_heap]; simp
    · rw [hidC]; exact hid
  have horph := orphan_foldl ops2 _ hrC hliveC hsupC
  have hliveD : Live (afterDuplicate e0 r1 ops1 r2 ops2).heap e0.heap.length := horph.1
  have hsupD : Superseded (afterDuplicate e0 r1 ops1 r2 ops2).heap e0.heap.length := horph.2
  have hkeyD : keyAt (afterDuplicate e0 r1 ops1 r2 ops2).heap e0.heap.length =
      toLower r1.last := by
    rw [keyAt_of_heapExtends hxAD hlenA]
    simp [keyAt, hslotA]
  refine ⟨insertRecord_snd e0 r1, ?_, ?_, ?_, ?_⟩
  · obtain ⟨r, hr, hi1, hl1, -⟩ := hxAD.2 _ _ hslotA
    obtain ⟨r', hr', hd'⟩ := hliveD
    rw [hr] at hr'
    have hrr : r = r' := Option.some.inj hr'
    subst hrr
    exact ⟨r, hr, hd', hi1, hl1⟩
  · intro k hf
    exact not_current_of_superseded hsupD k ((findById_eq_some_iff hiD k _).1 hf)
  · intro lo hi hmem
    obtain ⟨k, -, -, hc⟩ := (mem_rangeById hiD lo hi _).1 hmem
    exact not_current_of_superseded hsupD k hc
  · intro hbytes q hq
    rw [mem_prefixByLast hiD, hkeyD]
    refine ⟨hliveD, hq, ?_⟩
    obtain ⟨t, ht⟩ := hq
    have hb := toLower_lt hbytes
    rw [← ht] at hb ⊢
    exact append_le_sentinel _ t (fun c hc => hb c (List.mem_append_right _ hc))

/-- C18 on the engine with two inserts of id 1 ("a", then "b"), followed by
`deleteById(1)`, a third insert of id 1 and another `deleteById(1)`. -/
theorem C18_orphaned_record_witness :
    Reachable Engine.empty ∧ (1 : Int) = 1 ∧
      Live ((([] : List Op).foldl step (insertRecord Engine.empty ⟨1, [97], false⟩).1).heap)
        Engine.empty.heap.length ∧
      ((insertRecord Engine.empty ⟨1, [97], false⟩).2 = (Engine.empty.heap.length : Int) ∧
      (∃ r, (afterDuplicate Engine.empty ⟨1, [97], false⟩ [] ⟨1, [98], false⟩
          [Op.delete 1, Op.insert ⟨1, [99], false⟩, Op.delete 1]).heap[
            Engine.empty.heap.length]? = some r ∧
        r.deleted = false ∧ r.id = 1 ∧ r.last = [97]) ∧
      (∀ k : Int, (findById (afterDuplicate Engine.empty ⟨1, [97], false⟩ [] ⟨1, [98], false⟩
          [Op.delete 1, Op.insert ⟨1, [99], false⟩, Op.delete 1]) k).2.1 ≠
        some Engine.empty.heap.length) ∧
      (∀ lo hi : Int, Engine.empty.heap.length ∉
        (rangeById (afterDuplicate Engine.empty ⟨1, [97], false⟩ [] ⟨1, [98], false⟩
          [Op.delete 1, Op.insert ⟨1, [99], false⟩, Op.delete 1]) lo hi).2.1) ∧
      ((∀ c ∈ ([97] : Str), c < 127) → ∀ q : Str, toLower q <+: toLower [97] →
        Engine.empty.heap.length ∈
          (prefixByLast (afterDuplicate Engine.empty ⟨1, [97], false⟩ [] ⟨1, [98], false⟩
            [Op.delete 1, Op.insert ⟨1, [99], false⟩, Op.delete 1]) q).2.1)) :=
  ⟨Reachable.empty, rfl, ⟨⟨1, [97], false⟩, by decide, rfl⟩,
    C18_orphaned_record Engine.empty Reachable.empty ⟨1, [97], false⟩ ⟨1, [98], false⟩ []
      [Op.delete 1, Op.insert ⟨1, [99], false⟩, Op.delete 1] rfl
      ⟨⟨1, [97], false⟩, by decide, rfl⟩⟩

/-! ## The prefix test of the visitor -/

theorem isPrefix_of_between (low key : Str) (h1 : low ≤ key) (h2 : key ≤ low ++ [127]) :
    low <+: key := by
  induction low generalizing key with
  | nil => exact List.nil_prefix
  | cons a l ih =>
    cases key with
    | nil =>
      have hlt : ([] : Str) < a :: l := List.Lex.nil
      exact absurd hlt (not_lt.2 h1)
    | cons b k =>
      have hab : a ≤ b := by
        by_contra hc
        have hlt : b :: k < a :: l := List.Lex.rel (not_le.1 hc)
        exact not_lt.2 h1 hlt
      have hba : b ≤ a := by
        by_contra hc
        have hlt : a :: (l ++ [127]) < b :: k := List.Lex.rel (not_le.1 hc)
        exact not_lt.2 h2 hlt
      have heq : a = b := le_antisymm hab hba
      subst heq
      have hl : l ≤ k := by
        by_contra hc
        have hlt : a :: k < a :: l := List.Lex.cons (not_le.1 hc)
        exact not_lt.2 h1 hlt
      have hk : k ≤ l ++ [127] := by
        by_contra hc
        have hlt : a :: (l ++ [127]) < a :: k := List.Lex.cons (not_le.1 hc)
        exact not_lt.2 h2 hlt
      obtain ⟨t, ht⟩ := ih k hl hk
      exact ⟨t, by rw [← ht]; rfl⟩

namespace Node

variable {K V : Type} [LinearOrder K]

theorem rangeFold_congr {σ : Type} (lo hi : K) (f g : σ → K → V → σ)
    (hfg : ∀ (s : σ) (k : K) (v : V), lo ≤ k → k ≤ hi → f s k v = g s k v)
    (t : Node K V) (s : σ) : rangeFold lo hi f t s = rangeFold lo hi g t s := by
  induction t generalizing s with
  | nil => rfl
  | node l a x r ihl ihr =>
    simp only [rangeFold]
    have e1 : (if lo < a then rangeFold lo hi f l s else s) =
        (if lo < a then rangeFold lo hi g l s else s) := by
      split
      · exact ihl s
      · rfl
    rw [e1]
    by_cases hin : lo ≤ a ∧ a ≤ hi
    · simp only [if_pos hin, hfg _ a x hin.1 hin.2]
      split
      · exact ihr _
      · rfl
    · simp only [if_neg hin]
      split
      · exact ihr _
      · rfl

end Node

/-- C19: for all strings `low` and `key`, when `low ≤ key ≤ low + char(127)` in
the lexicographic order of strings, `key` starts with `low`, so the test at the
head of the `prefixByLast` visitor succeeds for `key`; hence for every engine
state and every prefix the result of `prefixByLast` is the result of the same
scan with the two early returns of the visitor left out. -/
theorem C19_reverification_redundant (low key : Str) (h1 : low ≤ key)
    (h2 : key ≤ low ++ [127]) (e : Engine) (pfx : Str) :
    low <+: key ∧ keyMatches key low = true ∧
      (prefixByLast e pfx).2.1 =
        e.lastIndex.root.rangeFold (toLower pfx) (toLower pfx ++ [127])
          (fun (out : List Nat) (_ : Str) (rids : List Int) =>
            rids.foldl (fun (acc : List Nat) (rid : Int) =>
              if liveSlot e.heap rid then acc ++ [rid.toNat] else acc) out) [] := by
  refine ⟨isPrefix_of_between low key h1 h2,
    (keyMatches_iff key low).2 (isPrefix_of_between low key h1 h2), ?_⟩
  unfold prefixByLast BST.rangeApply BST.resetMetrics
  dsimp only
  apply Node.rangeFold_congr
  intro s k v hlo hhi
  rw [if_pos ((keyMatches_iff k (toLower pfx)).2 (isPrefix_of_between _ k hlo hhi))]

/-- C19 on scenario B of the specification with `low = "sm"`, `key = "smith"`
and the prefix "Sm". -/
theorem C19_reverification_redundant_witness :
    ([115, 109] : Str) ≤ [115, 109, 105, 116, 104] ∧
      ([115, 109, 105, 116, 104] : Str) ≤ [115, 109] ++ [127] ∧
      (([115, 109] : Str) <+: [115, 109, 105, 116, 104] ∧
      keyMatches [115, 109, 105, 116, 104] [115, 109] = true ∧
      (prefixByLast scenarioB [83, 109]).2.1 =
        scenarioB.lastIndex.root.rangeFold (toLower [83, 109]) (toLower [83, 109] ++ [127])
          (fun (out : List Nat) (_ : Str) (rids : List Int) =>
            rids.foldl (fun (acc : List Nat) (rid : Int) =>
              if liveSlot scenarioB.heap rid then acc ++ [rid.toNat] else acc) out) []) :=
  ⟨by decide, by decide,
    C19_reverification_redundant [115, 109] [115, 109, 105, 116, 104] (by decide) (by decide)
      scenarioB [83, 109]⟩

/-! ## Frame of a successful delete -/

theorem live_tombstone (heap : List Record) (n : Nat) (r : Record) (hr : heap[n]? = some r)
    (m : Nat) : Live (heap.set n { r with deleted := true }) m ↔ m ≠ n ∧ Live heap m := by
  unfold Live
  rw [getElem?_tombstone heap n r hr]
  by_cases hm : m = n
  · subst hm
    simp
  · simp [hm]

theorem keyAt_tombstone (heap : List Record) (n : Nat) (r : Record) (hr : heap[n]? = some r)
    (m : Nat) : keyAt (heap.set n { r with deleted := true }) m = keyAt heap m := by
  unfold keyAt
  rw [getElem?_tombstone heap n r hr]
  by_cases hm : m = n
  · subst hm
    simp [hr]
  · simp [hm]

theorem prefixByLast_tombstone {e e1 : Engine} (h : Inv e) (h1 : Inv e1) (n : Nat) (r : Record)
    (hr : e.heap[n]? = some r) (hheap : e1.heap = e.heap.set n { r with deleted := true })
    (q : Str) : (prefixByLast e1 q).2.1 = (prefixByLast e q).2.1.erase n := by
  have hk : ∀ m, keyAt e1.heap m = keyAt e.heap m := by
    intro m; rw [hheap]; exact keyAt_tombstone e.heap n r hr m
  apply eq_of_pairwise_of_mem_iff
    (fun a b => keyAt e.heap a < keyAt e.heap b ∨ (keyAt e.heap a = keyAt e.heap b ∧ a < b))
  · rintro a b (h1 | ⟨h1, h2⟩) (h3 | ⟨h3, h4⟩)
    · exact lt_asymm h1 h3
    · rw [h3] at h1; exact lt_irrefl _ h1
    · rw [h1] at h3; exact lt_irrefl _ h3
    · exact lt_asymm h2 h4
  · have := prefixByLast_sorted h1 q
    simpa only [hk] using this
  · exact List.Pairwise.sublist (List.erase_sublist _ _) (prefixByLast_sorted h q)
  · intro a
    rw [(prefixByLast_nodup h q).mem_erase_iff, mem_prefixByLast h1, mem_prefixByLast h, hk,
      hheap, live_tombstone e.heap n r hr]
    tauto

/-- C20: in a reachable state, when `deleteById(k)` returns true and tombstones
slot `p`, then for every id `k' ≠ k` `findById(k')` returns the same slot, with
the same record in it, before and after; for every prefix `q` the sequence
returned by `prefixByLast(q)` afterwards is the sequence returned before with
slot `p` removed; `idIndex` maps every `k' ≠ k` as before and has lost the key
`k`; and in `lastIndex` only the bucket of the lower-cased last name of the
record in slot `p` has changed, by losing `p`. -/
theorem C20_delete_frame (e : Engine) (h : Reachable e) (k : Int)
    (hd : (deleteById e k).2 = true) :
    ∃ (p : Nat) (r : Record),
      e.idIndex.root.find k = some (p : Int) ∧ e.heap[p]? = some r ∧ r.deleted = false ∧
      (deleteById e k).1.heap = e.heap.set p { r with deleted := true } ∧
      (∀ k1 : Int, k1 ≠ k →
        (findById (deleteById e k).1 k1).2.1 = (findById e k1).2.1 ∧
          ∀ n : Nat, (findById e k1).2.1 = some n →
            (deleteById e k).1.heap[n]? = e.heap[n]?) ∧
      (∀ q : Str, (prefixByLast (deleteById e k).1 q).2.1 = (prefixByLast e q).2.1.erase p) ∧
      (∀ k1 : Int, (deleteById e k).1.idIndex.root.find k1 =
        if k1 = k then none else e.idIndex.root.find k1) ∧
      (∀ s : Str, s ≠ toLower r.last →
        (deleteById e k).1.lastIndex.root.find s = e.lastIndex.root.find s) ∧
      bucket (deleteById e k).1 (toLower r.last) = (bucket e (toLower r.last)).erase (p : Int) := by
  have hi0 := inv_of_reachable h
  have hi1 := inv_deleteById hi0 k
  rcases deleteById_cases e k with ⟨hf, -⟩ | ⟨p, r, hfind, hr, hdel, -, hheap, hid, hlast⟩
  · rw [hf] at hd; exact absurd hd (by simp)
  · have hfind1 : ∀ k1 : Int, (deleteById e k).1.idIndex.root.find k1 =
        if k1 = k then none else e.idIndex.root.find k1 := by
      intro k1
      rw [hid, Node.find_erase hi0.ordId]
    have hlast1 : ∀ s : Str, (deleteById e k).1.lastIndex.root.find s =
        if s = toLower r.last then
          (match e.lastIndex.root.find (toLower r.last) with
           | none => none
           | some v => if v.erase (p : Int) = [] then none else some (v.erase (p : Int)))
        else e.lastIndex.root.find s := by
      intro s
      rw [hlast, find_lastRootAfterDelete hi0.ordLast]
    refine ⟨p, r, hfind, hr, hdel, hheap, ?_, ?_, hfind1, ?_, ?_⟩
    · intro k1 hk1
      constructor
      · rw [findById_result hi1, findById_result hi0, hfind1, if_neg hk1]
      · intro n hn
        have hc := (findById_eq_some_iff hi0 k1 n).1 hn
        have hnp : n ≠ p := by
          rintro rfl
          have := (hi0.idExact k1 n).2 ⟨n, rfl, hc⟩
          have hc2 := (hi0.idExact k n).1 hfind
          obtain ⟨m, hm, hcm⟩ := hc2
          have : n = m := Int.ofNat.inj hm
          subst this
          exact hk1 (by rw [← hc.idAt, hcm.idAt])
        rw [hheap, getElem?_tombstone e.heap p r hr, if_neg hnp]
    · intro q
      exact prefixByLast_tombstone hi0 hi1 p r hr hheap q
    · intro s hs
      rw [hlast1, if_neg hs]
    · unfold bucket
      rw [hlast1, if_pos rfl]
      cases hv : e.lastIndex.root.find (toLower r.last) with
      | none => simp
      | some v =>
        by_cases hx : v.erase (p : Int) = [] <;> simp [hx]

/-- C20 on scenario B of the specification: deleting id 6. -/
theorem C20_delete_frame_witness :
    Reachable scenarioB ∧ (deleteById scenarioB 6).2 = true ∧
      ∃ (p : Nat) (r : Record),
      scenarioB.idIndex.root.find 6 = some (p : Int) ∧ scenarioB.heap[p]? = some r ∧
      r.deleted = false ∧
      (deleteById scenarioB 6).1.heap = scenarioB.heap.set p { r with deleted := true } ∧
      (∀ k1 : Int, k1 ≠ 6 →
        (findById (deleteById scenarioB 6).1 k1).2.1 = (findById scenarioB k1).2.1 ∧
          ∀ n : Nat, (findById scenarioB k1).2.1 = some n →
            (deleteById scenarioB 6).1.heap[n]? = scenarioB.heap[n]?) ∧
      (∀ q : Str, (prefixByLast (deleteById scenarioB 6).1 q).2.1 =
        (prefixByLast scenarioB q).2.1.erase p) ∧
      (∀ k1 : Int, (deleteById scenarioB 6).1.idIndex.root.find k1 =
        if k1 = 6 then none else scenarioB.idIndex.root.find k1) ∧
      (∀ s : Str, s ≠ toLower r.last →
        (deleteById scenarioB 6).1.lastIndex.root.find s = scenarioB.lastIndex.root.find s) ∧
      bucket (deleteById scenarioB 6).1 (toLower r.last) =
        (bucket scenarioB (toLower r.last)).erase (p : Int) :=
  ⟨reachable_run _, by decide, C20_delete_frame scenarioB (reachable_run _) 6 (by decide)⟩

end MiniDB
